import Mathlib

/-!
Verification development for the distributed triangular-solve core
(src/SRC/pdgstrs.c): a shallow embedding of the grid/supernode layout, the
B-to-X / X-to-B redistribution, the entry validation of pdgstrs, the diagonal
inverse precomputation, the brecv pre-pass, and the message-driven L-sweep
scheduler, together with theorems settling the specification claims.

Numerical values are modelled over the rationals: the routines under study only
copy and accumulate values, so the floating-point type of the source is
immaterial to the properties proved here.
-/

set_option autoImplicit false
set_option synthInstance.maxSize 20000
set_option maxHeartbeats 1000000

namespace SuperluDist

/-- The 2D process mesh: P_r rows and P_c columns of processes. -/
structure Grid where
  nprow : Nat
  npcol : Nat
deriving Repr, DecidableEq

/-- Total number of processes in the grid. -/
def Grid.procs (g : Grid) : Nat := g.nprow * g.npcol

/-- PROW(k): the process row owning block row k (block-cyclic). -/
def Grid.prow (g : Grid) (k : Nat) : Nat := k % g.nprow

/-- PCOL(k): the process column owning block column k (block-cyclic). -/
def Grid.pcol (g : Grid) (k : Nat) : Nat := k % g.npcol

/-- PNUM(i,j): the rank of the process at mesh position (i,j). -/
def Grid.pnum (g : Grid) (i j : Nat) : Nat := i * g.npcol + j

/-- LBi(k): the local block-row number of global block k. -/
def Grid.lbi (g : Grid) (k : Nat) : Nat := k / g.nprow

/-- LBj(k): the local block-column number of global block k. -/
def Grid.lbj (g : Grid) (k : Nat) : Nat := k / g.npcol

/-- The diagonal owner of supernode k: PNUM(PROW(k), PCOL(k)). -/
def Grid.diagOwner (g : Grid) (k : Nat) : Nat := g.pnum (g.prow k) (g.pcol k)

/-- Modelled from the spec: the X block header is a single word (the header
macro XK_H lives in the headers, which are not under src/; the spec fixes the
X-broadcast payload as values "preceded by a single-word header equal to k"). -/
def XK_H : Nat := 1

/-- Modelled from the spec: the LSUM block header is two words (the macro
LSUM_H is not under src/; the spec fixes the LSUM payload header as two words). -/
def LSUM_H : Nat := 2

/-- X_BLK(lk): start of the values of local block lk inside the x array
(mirrors the macro: ilsum[lk]*nrhs + (lk+1)*XK_H; the header word of the block
sits at X_BLK(lk) - XK_H). -/
def xblk (ilsum : Nat → Nat) (nrhs lk : Nat) : Nat := ilsum lk * nrhs + (lk + 1) * XK_H

/-- LSUM_BLK(lk): start of the values of local block lk inside the lsum array. -/
def lsumBlk (ilsum : Nat → Nat) (nrhs lk : Nat) : Nat := ilsum lk * nrhs + (lk + 1) * LSUM_H

/-! ### Entry validation of pdgstrs (src/SRC/pdgstrs.c lines 833-950)

The local variable `msgcnt` is initialized with a SUPERLU_MALLOC at its
declaration, which in C executes at function entry, before the argument tests;
only after the tests succeed are the solver's working arrays allocated. -/

/-- The buffers pdgstrs allocates on the path from entry to the end of its
working-storage setup, in program order. -/
inductive Buf where
  | msgcnt | fmodBuf | frecvBuf | sendReq | lsumBuf | xBuf
  | recvbuf | recvbufOn | rtemp | ipiv
deriving Repr, DecidableEq

/-- Result of the entry section of pdgstrs: the value stored through *info,
the allocations performed so far (in order), and whether the routine returned
at the validation test. -/
structure EntryResult where
  info : Int
  allocs : List Buf
  earlyReturn : Bool
deriving Repr, DecidableEq

/-- Shallow embedding of the entry of pdgstrs (src/SRC/pdgstrs.c lines
833-950): the msgcnt allocation executes at its declaration; then *info is set
to 0, to -1 when n < 0, or to -9 when nrhs < 0, and a nonzero *info causes an
immediate return (after the pxerr_dist diagnostic); otherwise the working
storage is allocated and the solve proceeds. -/
def pdgstrsEntry (n nrhs : Int) : EntryResult :=
  let allocs0 : List Buf := [Buf.msgcnt]
  let info : Int := if n < 0 then -1 else if nrhs < 0 then -9 else 0
  if info ≠ 0 then
    { info := info, allocs := allocs0, earlyReturn := true }
  else
    { info := 0
    , allocs := allocs0 ++ [Buf.fmodBuf, Buf.frecvBuf, Buf.sendReq, Buf.lsumBuf,
        Buf.xBuf, Buf.recvbuf, Buf.recvbufOn, Buf.rtemp, Buf.ipiv]
    , earlyReturn := false }

/-! ### Diagonal inverse precomputation (src/SRC/pdgstrs.c lines 558-669) -/

/-- A locally owned diagonal supernode block as pdCompute_Diag_Inv sees it:
the supernode size knsupc, the leading dimension nsupr of the L panel, and the
dense panel values, column major (entry (i,j) at lusup (j*nsupr + i)). -/
structure DiagBlock where
  knsupc : Nat
  nsupr : Nat
  lusup : Nat → ℚ

/-- The unit-lower triangle the source copies into Linv before inversion:
1 on the diagonal, the strict lower panel entries below it (src lines 634-639). -/
def DiagBlock.linvEntry (b : DiagBlock) (i j : Nat) : ℚ :=
  if i = j then 1
  else if j < i ∧ i < b.knsupc then b.lusup (j * b.nsupr + i)
  else 0

/-- The upper triangle the source copies into Uinv before inversion
(src lines 641-643: rows 0..j of column j). -/
def DiagBlock.uinvEntry (b : DiagBlock) (i j : Nat) : ℚ :=
  if i ≤ j ∧ j < b.knsupc then b.lusup (j * b.nsupr + i) else 0

/-- Modelled from the spec: the dense triangular-inversion kernel (dtrtri) is
an external BLAS-equivalent not under src/; per its contract its INFO output
reports the 1-based index of the first exactly-zero diagonal entry, 0 when the
triangle is nonsingular, and a unit-diagonal triangle is never reported
singular (its diagonal is not referenced). -/
def dtrtriInfo (unitDiag : Bool) (nn : Nat) (diag : Nat → ℚ) : Int :=
  if unitDiag then 0
  else
    match (List.range nn).find? (fun i => decide (diag i = 0)) with
    | some i => (i : Int) + 1
    | none => 0

/-- Result of pdCompute_Diag_Inv: the Llu->inv flag, the value of the caller's
*info after the call, and the INFO values the inversion kernel produced, in
program order (the source stores them in a local variable it never reads). -/
structure DiagInvResult where
  inv : Int
  infoOut : Int
  kernelReports : List Int
deriving Repr, DecidableEq

/-- Shallow embedding of pdCompute_Diag_Inv (src/SRC/pdgstrs.c lines 558-669)
restricted to its observable effects on the pair (Llu->inv, *info) and the
kernel reports: the routine sets Llu->inv = 1, then for every locally owned
diagonal block builds the unit-lower and upper triangles and calls dtrtri on
each ("L","U" then "U","N"); the local INFO variable receives the kernel report
and is never examined, and *info is never assigned anywhere in the routine. -/
def pdComputeDiagInv (blocks : List DiagBlock) (info0 : Int) : DiagInvResult :=
  { inv := 1
  , infoOut := info0
  , kernelReports := blocks.flatMap (fun b =>
      [ dtrtriInfo true b.knsupc (fun i => b.linvEntry i i)
      , dtrtriInfo false b.knsupc (fun i => b.uinvEntry i i) ]) }

/-! ### brecv pre-pass before the U-sweep (src/SRC/pdgstrs.c lines 1682-1718) -/

/-- One process row of the grid as the brecv pre-pass sees it: the grid sizes,
the common process-row index myrow, the supernode count, the local block-row
count nlb, and for every process column q the per-call bmod array held by the
process at mesh position (myrow, q). -/
structure URowConfig where
  nprow : Nat
  npcol : Nat
  myrow : Nat
  nsupers : Nat
  nlb : Nat
  bmodOf : Nat → Nat → Int

/-- The mod_bit array computed by the process at column q (src lines
1686-1695): zero-initialized, then for every supernode k in this process row
for which the process is off-diagonal (mycol ≠ PCOL(k)) and holds a nonzero
bmod count, the slot LBi(k) is set to 1. -/
def modBitArr (c : URowConfig) (q : Nat) : Nat → Int :=
  (List.range c.nsupers).foldl
    (fun arr k =>
      if c.myrow = k % c.nprow ∧ q ≠ k % c.npcol ∧ c.bmodOf q (k / c.nprow) ≠ 0
      then fun lk => if lk = k / c.nprow then 1 else arr lk
      else arr)
    (fun _ => 0)

/-- brecv as produced by the single MPI_Allreduce(MPI_SUM) of mod_bit across
the row scope (src line 1700): the elementwise sum over the process row. -/
def brecvArr (c : URowConfig) (lk : Nat) : Int :=
  ((List.range c.npcol).map (fun q => modBitArr c q lk)).sum

/-- nbrecvmod on the diagonal process at column mycol: the loop at src lines
1704-1718 accumulates brecv[LBi(k)] over the supernodes k whose diagonal this
process owns. -/
def nbrecvmodOf (c : URowConfig) (mycol : Nat) : Int :=
  ((List.range c.nsupers).filter
      (fun k => decide (c.myrow = k % c.nprow ∧ mycol = k % c.npcol))).foldl
    (fun acc k => acc + brecvArr c (k / c.nprow)) 0

/-- nroot on the diagonal process at column mycol (src line 1711): the number
of diagonal-owned supernodes with brecv = 0 and bmod = 0. -/
def nrootOf (c : URowConfig) (mycol : Nat) : Nat :=
  ((List.range c.nsupers).filter
      (fun k => decide (c.myrow = k % c.nprow ∧ mycol = k % c.npcol
          ∧ brecvArr c (k / c.nprow) = 0 ∧ c.bmodOf mycol (k / c.nprow) = 0))).length

/-- The process columns of the row scope that contribute to block-row LBi(k):
off-diagonal position and nonzero bmod for that block-row. -/
def contributors (c : URowConfig) (k : Nat) : List Nat :=
  (List.range c.npcol).filter
    (fun q => decide (q ≠ k % c.npcol ∧ c.bmodOf q (k / c.nprow) ≠ 0))

/-! ### The L-sweep service loop (src/SRC/pdgstrs.c lines 1145-1147, 1347-1660) -/

/-- A message received by the L-sweep service loop, as classified by its tag
(src lines 1405 and 1455): an X broadcast for supernode k (tag < nsupers) or
an LSUM reduction contribution for supernode k (nsupers ≤ tag < 2*nsupers). -/
inductive LMsg where
  | xmsg (k : Nat)
  | lsumMsg (k : Nat)
deriving Repr, DecidableEq

/-- Modelled from the spec: the tag carried by each message class.  The send
side lives in the broadcast/reduction tree code, which is not under src/; the
spec fixes X-broadcast tags as k in [0, NSUP) and LSUM tags in [NSUP, 2*NSUP),
matching the receiver's classification in src lines 1405 and 1455. -/
def LMsg.tagOf (nsupers : Nat) : LMsg → Nat
  | .xmsg k => k
  | .lsumMsg k => nsupers + k

/-- Static data of the service loop: the supernode count, the receive-buffer
block size maxrecvsz, and the broadcast-tree fanout (BcTree_getDestCount) of
the local block column of each supernode. -/
structure LoopCfg where
  nsupers : Nat
  maxrecvsz : Nat
  destCount : Nat → Nat

/-- The counters the service loop mutates: the number of X broadcasts still
expected, the number of LSUM contributions still expected, and the
forward-buffer slot index nfrecvx_buf (reset to 0 at src line 1147). -/
structure LoopSt where
  nfrecvx : Int
  nfrecvmod : Int
  nfrecvxBuf : Nat
deriving Repr, DecidableEq

/-- Effect of one received message on the loop counters (src lines 1405-1599):
an X message decrements nfrecvx and, exactly when the local broadcast tree has
downstream children (BcTree_getDestCount > 0, src lines 1413 and 1451),
advances the forward-buffer slot nfrecvx_buf by one; an LSUM message
decrements nfrecvmod and leaves nfrecvx_buf alone. -/
def procLMsg (c : LoopCfg) (s : LoopSt) : LMsg → LoopSt
  | .xmsg k =>
      { s with nfrecvx := s.nfrecvx - 1
             , nfrecvxBuf := if 0 < c.destCount k then s.nfrecvxBuf + 1 else s.nfrecvxBuf }
  | .lsumMsg _ => { s with nfrecvmod := s.nfrecvmod - 1 }

/-- The service loop (src line 1356: while nfrecvx or nfrecvmod): as long as
either counter is nonzero, the next message of the incoming stream is received
into slot nfrecvx_buf of recvbuf_BC_fwd (recvbuf0 points at
nfrecvx_buf*maxrecvsz, src lines 1351, 1452, 1595) and processed.  Returns the
final state, the number of iterations performed, and the receive-slot index
used by each iteration's MPI_Recv, in order. -/
def serviceLoop (c : LoopCfg) (s : LoopSt) : List LMsg → LoopSt × Nat × List Nat
  | [] => (s, 0, [])
  | m :: ms =>
      if s.nfrecvx = 0 ∧ s.nfrecvmod = 0 then (s, 0, [])
      else
        let r := serviceLoop c (procLMsg c s m) ms
        (r.1, r.2.1 + 1, s.nfrecvxBuf :: r.2.2)

/-- Number of X-broadcast messages in a stream. -/
def countX (ms : List LMsg) : Nat :=
  (ms.filter (fun m => match m with | .xmsg _ => true | .lsumMsg _ => false)).length

/-- Number of LSUM messages in a stream. -/
def countL (ms : List LMsg) : Nat :=
  (ms.filter (fun m => match m with | .xmsg _ => false | .lsumMsg _ => true)).length

/-- The local tree tables: which local block columns carry a non-null
broadcast tree and which local block rows a non-null reduction tree. -/
structure TreeCfg where
  nsupersj : Nat
  nsupersi : Nat
  hasBtree : Nat → Bool
  hasRtree : Nat → Bool

/-- The broadcast trees waited on after the L-sweep loop (src lines
1645-1652): every non-null LBtree gets a BcTree_waitSendRequest. -/
def awaitedBtrees (t : TreeCfg) : List Nat :=
  (List.range t.nsupersj).filter t.hasBtree

/-- The reduction trees waited on after the L-sweep loop (src lines
1654-1659): every non-null LRtree gets an RdTree_waitSendRequest. -/
def awaitedRtrees (t : TreeCfg) : List Nat :=
  (List.range t.nsupersi).filter t.hasRtree

/-! ### Per-block counter discipline of the sweeps
(src/SRC/pdgstrs.c lines 909-916, 1114-1139, 1188-1343, 1455-1592, 1670-1677,
1866-1969) -/

/-- Pointwise update of an integer array modelled as a function. -/
def updArr (f : Nat → Int) (i : Nat) (v : Int) : Nat → Int :=
  fun j => if j = i then v else f j

/-- Static data of one process's sweep scheduler: the number of local block
rows nlb, which of them are diagonal-local (this process owns the diagonal of
the corresponding supernode), and which carry a non-null local reduction
tree. -/
structure SolveCfg where
  nlb : Nat
  diagLocal : Nat → Bool
  hasRtree : Nat → Bool

/-- The counter state of one sweep together with the factor-resident template
it was copied from (Llu->fmod for the L-sweep, Llu->bmod for the U-sweep; the
solver reads the template once, at the copy, and never writes it).  solved
records the diagonal solves fired, in order; marked records the non-root
reduction-completion forwards (src line 1590). -/
structure SolveSt where
  lluTemplate : Nat → Int
  fmod : Nat → Int
  frecv : Nat → Int
  solved : List Nat
  marked : List Nat

/-- Entry copy (src lines 911-913 for fmod, 1672-1674 for bmod): a fresh
per-call array whose entries are read off the factor-resident template. -/
def entryCopy (template frecv0 : Nat → Int) : SolveSt :=
  { lluTemplate := template, fmod := template, frecv := frecv0
  , solved := [], marked := [] }

/-- A scheduler decrement event: upd lk is one local block modification
(dlsum_fmod_inv performs lsum -= L_{lk,k}*X_k and decrements fmod[lk]);
recvl lk is the receipt of one LSUM reduction contribution for block-row lk
(src line 1458: --frecv[lk]). -/
inductive SEv where
  | upd (lk : Nat)
  | recvl (lk : Nat)
deriving Repr, DecidableEq

/-- The completion check the source performs right after each decrement (src
lines 1469 and 1588; the matching check inside dlsum_fmod_inv is modelled
from the spec, that routine being outside src/): when fmod and frecv have both
reached 0 the block fires exactly once: a diagonal-local block runs its
diagonal solve and fmod is set to -1 (do not solve X[k] in the future, src
lines 1471 and 1589); a non-root block forwards the partial sum up the
reduction tree and fmod is likewise set to -1. -/
def completeCheck (c : SolveCfg) (s : SolveSt) (lk : Nat) : SolveSt :=
  if s.fmod lk = 0 ∧ s.frecv lk = 0 then
    if c.diagLocal lk then
      { s with fmod := updArr s.fmod lk (-1), solved := s.solved ++ [lk] }
    else
      { s with fmod := updArr s.fmod lk (-1), marked := s.marked ++ [lk] }
  else s

/-- Apply one decrement event, then run the source's completion check on the
touched block. -/
def applyEv (c : SolveCfg) (s : SolveSt) : SEv → SolveSt
  | .upd lk => completeCheck c { s with fmod := updArr s.fmod lk (s.fmod lk - 1) } lk
  | .recvl lk => completeCheck c { s with frecv := updArr s.frecv lk (s.frecv lk - 1) } lk

/-- Validity of an event against the current state.  Modelled from the spec:
fmod counts the remaining local block updates and frecv the remaining peer
contributions for the block row, so a decrement only arrives while the
corresponding count is still positive. -/
def ValidEv (c : SolveCfg) (s : SolveSt) : SEv → Prop
  | .upd lk => lk < c.nlb ∧ 1 ≤ s.fmod lk
  | .recvl lk => lk < c.nlb ∧ 1 ≤ s.frecv lk

/-- Run a sequence of scheduler events. -/
def runTrace (c : SolveCfg) (s : SolveSt) : List SEv → SolveSt
  | [] => s
  | e :: es => runTrace c (applyEv c s e) es

/-- All events of the sequence are valid when reached. -/
def ValidTrace (c : SolveCfg) (s : SolveSt) : List SEv → Prop
  | [] => True
  | e :: es => ValidEv c s e ∧ ValidTrace c (applyEv c s e) es

/-- The intermediate states of a run, starting state included. -/
def traceStates (c : SolveCfg) (s : SolveSt) : List SEv → List SolveSt
  | [] => [s]
  | e :: es => s :: traceStates c (applyEv c s e) es

/-- One step of the leaf pre-pass of the L-sweep (src lines 1114-1139 and
1188-1343): a diagonal-local block row with a null reduction tree and
fmod = 0 is a leaf; it is solved up front and its fmod set to -1. -/
def leafStep (c : SolveCfg) (s2 : SolveSt) (lk : Nat) : SolveSt :=
  if c.diagLocal lk = true ∧ c.hasRtree lk = false ∧ s2.fmod lk = 0
  then { s2 with fmod := updArr s2.fmod lk (-1), solved := s2.solved ++ [lk] }
  else s2

/-- The leaf pre-pass: scan all local block rows and solve the leaves. -/
def leafPass (c : SolveCfg) (s : SolveSt) : SolveSt :=
  (List.range c.nlb).foldl (leafStep c) s

/-- One step of the root pre-pass of the U-sweep (src lines 1866-1969): a
diagonal-local block row with brecv = 0 and bmod = 0 is a root; it is solved
up front and its bmod set to -1 (the SolveSt fields fmod/frecv stand for
bmod/brecv in the U-sweep). -/
def rootStep (c : SolveCfg) (s2 : SolveSt) (lk : Nat) : SolveSt :=
  if c.diagLocal lk = true ∧ s2.frecv lk = 0 ∧ s2.fmod lk = 0
  then { s2 with fmod := updArr s2.fmod lk (-1), solved := s2.solved ++ [lk] }
  else s2

/-- The root pre-pass: scan all local block rows and solve the roots. -/
def rootPass (c : SolveCfg) (s : SolveSt) : SolveSt :=
  (List.range c.nlb).foldl (rootStep c) s

/-- The counter lifecycle of one pdgstrs call: the L-sweep runs on a fresh
copy of Llu->fmod (src line 913) with frecv populated from the reduction
trees (src line 1119); afterwards the U-sweep runs on a fresh copy of
Llu->bmod (src line 1674) with brecv from the pre-pass; both copies are freed
at exit (src lines 1635 and 2194) and the templates are never written. -/
def pdgstrsCounterRun (cL cU : SolveCfg) (lluFmod lluBmod frecv0 brecv0 : Nat → Int)
    (esL esU : List SEv) : SolveSt × SolveSt :=
  (runTrace cL (leafPass cL (entryCopy lluFmod frecv0)) esL,
   runTrace cU (rootPass cU (entryCopy lluBmod brecv0)) esU)

/-- Concrete scheduler configuration: one diagonal-local block row with a
non-null reduction tree. -/
def cexSolveCfg : SolveCfg := ⟨1, fun _ => true, fun _ => true⟩

/-- Its start state: template fmod = 1, tree-derived frecv = 1, after the
leaf pre-pass (which finds no leaf: the reduction tree is non-null). -/
def cexSolveSt : SolveSt := leafPass cexSolveCfg (entryCopy (fun _ => 1) (fun _ => 1))

/-- A complete event stream for that block: its one local update, then its
one LSUM contribution. -/
def cexTrace : List SEv := [SEv.upd 0, SEv.recvl 0]

/-! ### Redistribution B to X and X to B (src/SRC/pdgstrs.c lines 149-554) -/

/-- Static data of the redistribution: the grid, the supernode table (the
xsup boundaries and the supno block-number map), the row and column
permutations, the global order n, the number of right-hand sides, the 1D row
distribution (fst_row, m_loc and local leading dimension ldb per process),
the row-to-process map of the SOLVEstruct, and the per-process ilsum offset
tables. -/
structure RConfig where
  grid : Grid
  nsupers : Nat
  xsup : Nat → Nat
  supno : Nat → Nat
  permR : Nat → Nat
  permC : Nat → Nat
  n : Nat
  nrhs : Nat
  fstRow : Nat → Nat
  mLoc : Nat → Nat
  ldb : Nat → Nat
  rowToProc : Nat → Nat
  ilsum : Nat → Nat → Nat

/-- SuperSize(k) = xsup[k+1] - xsup[k]. -/
def RConfig.superSize (c : RConfig) (k : Nat) : Nat := c.xsup (k + 1) - c.xsup k

/-- The composed row permutation applied at src line 221:
irow = perm_c[perm_r[l]]. -/
def RConfig.sigma (c : RConfig) (l : Nat) : Nat := c.permC (c.permR l)

/-- Number of processes. -/
def RConfig.procs (c : RConfig) : Nat := c.grid.procs

/-- Position of entry (i, j) of the x block of supernode k inside the x array
of process d: X_BLK(LBi(k)) + i + j*SuperSize(k) (src lines 322-326 and
438-450). -/
def RConfig.addr (c : RConfig) (d k i j : Nat) : Nat :=
  xblk (c.ilsum d) c.nrhs (c.grid.lbi k) + i + j * c.superSize k

/-- Position of the header word of the x block of supernode k on process d:
X_BLK(LBi(k)) - XK_H (src line 323). -/
def RConfig.hdr (c : RConfig) (d k : Nat) : Nat :=
  xblk (c.ilsum d) c.nrhs (c.grid.lbi k) - XK_H

/-- The global permuted index of local row i of process p. -/
def RConfig.permutedRow (c : RConfig) (p i : Nat) : Nat := c.sigma (c.fstRow p + i)

/-- The diagonal owner of the supernode containing permuted row r. -/
def RConfig.ownerOf (c : RConfig) (r : Nat) : Nat := c.grid.diagOwner (c.supno r)

/-- One row's packet of the scatter. -/
structure BPacket where
  dest : Nat
  irow : Nat
  vals : Nat → ℚ

/-- The packet pdReDistribute_B_to_X builds for local row i of process p (src
lines 220-232): global row l = fst_row + i, permuted index perm_c[perm_r[l]],
destination the diagonal owner PNUM(PROW(gbi), PCOL(gbi)) of its supernode,
and the nrhs values B[i + j*ldb], row major. -/
def mkBPacket (c : RConfig) (B : Nat → Nat → ℚ) (p i : Nat) : BPacket :=
  let l := c.fstRow p + i
  let irow := c.sigma l
  let gbi := c.supno irow
  { dest := c.grid.pnum (c.grid.prow gbi) (c.grid.pcol gbi)
  , irow := irow
  , vals := fun j => B p (i + j * c.ldb p) }

/-- All packets of the scatter, grouped by source process in rank order: the
order in which MPI_Alltoallv with consistent counts and displacements (the
claim's precondition, established by pxgstrs_init) delivers them to each
destination. -/
def scatterPackets (c : RConfig) (B : Nat → Nat → ℚ) : List BPacket :=
  (List.range c.procs).flatMap (fun p => (List.range (c.mLoc p)).map (mkBPacket c B p))

/-- The writes the unpack loop performs into x for one received packet (src
lines 318-327): the block header word x[X_BLK - XK_H] = k, then the nrhs
values at offsets relative to FstBlockC(k). -/
def writesOfPacket (c : RConfig) (d : Nat) (pk : BPacket) : List (Nat × ℚ) :=
  let k := c.supno pk.irow
  (c.hdr d k, (k : ℚ))
    :: (List.range c.nrhs).map (fun j => (c.addr d k (pk.irow - c.xsup k) j, pk.vals j))

/-- Apply a list of (location, value) writes in order. -/
def applyWrites (x : Nat → ℚ) (ws : List (Nat × ℚ)) : Nat → ℚ :=
  ws.foldl (fun f wv => fun a => if a = wv.1 then wv.2 else f a) x

/-- The x array of process d after pdReDistribute_B_to_X: zero-initialized
(doubleCalloc, src line 939), then written per received packet, in arrival
order. -/
def scatterX (c : RConfig) (B : Nat → Nat → ℚ) (d : Nat) : Nat → ℚ :=
  applyWrites (fun _ => 0)
    (((scatterPackets c B).filter (fun pk => decide (pk.dest = d))).flatMap
      (writesOfPacket c d))

/-- One row's packet of the gather. -/
structure XPacket where
  dest : Nat
  row : Nat
  vals : Nat → ℚ

/-- The gather send loop (src lines 431-458): on the diagonal owner of each
supernode k, the global index ii = FstBlockC(k) + i is sent, unpermuted (the
inv_perm_c branch is compiled out at src lines 440-444), to row_to_proc[ii],
with the x values of that row.  Modelled from the spec for the outer
enumeration only: the diag_procs/num_diag_procs tables (built by pxgstrs_init,
not under src/) enumerate every supernode exactly once at its diagonal
owner. -/
def gatherPackets (c : RConfig) (x : Nat → Nat → ℚ) : List XPacket :=
  (List.range c.nsupers).flatMap (fun k =>
    let d := c.grid.diagOwner k
    (List.range (c.superSize k)).map (fun i =>
      { dest := c.rowToProc (c.xsup k + i)
      , row := c.xsup k + i
      , vals := fun j => x d (c.addr d k i j) }))

/-- The B array of process q after pdReDistribute_X_to_B (src lines 534-540):
each received (row, values) packet overwrites B[(row - fst_row) + j*ldb]. -/
def gatherOut (c : RConfig) (x : Nat → Nat → ℚ) (B : Nat → Nat → ℚ) (q : Nat) :
    Nat → ℚ :=
  applyWrites (B q)
    (((gatherPackets c x).filter (fun pk => decide (pk.dest = q))).flatMap (fun pk =>
      (List.range c.nrhs).map (fun j => (pk.row - c.fstRow q + j * c.ldb q, pk.vals j))))

/-- The composition of the two redistributions, with the intervening x left
exactly as the scattered B. -/
def roundTrip (c : RConfig) (B : Nat → Nat → ℚ) (q : Nat) : Nat → ℚ :=
  gatherOut c (fun d => scatterX c B d) B q

/-- A valid redistribution setup: consistent supernode table, permutations
that permute [0, n), a partitioning row distribution with a consistent
row-to-process map, and non-aliasing x-block addressing -- the consistency
that pxgstrs_init establishes and the claim presupposes. -/
structure ValidSetup (c : RConfig) : Prop where
  npos : 0 < c.grid.nprow ∧ 0 < c.grid.npcol
  xsup0 : c.xsup 0 = 0
  xsupMono : ∀ k, k < c.nsupers → c.xsup k < c.xsup (k + 1)
  xsupTop : c.xsup c.nsupers = c.n
  supnoSpec : ∀ i, i < c.n →
    c.supno i < c.nsupers ∧ c.xsup (c.supno i) ≤ i ∧ i < c.xsup (c.supno i + 1)
  sigmaLt : ∀ l, l < c.n → c.sigma l < c.n
  sigmaInj : ∀ l, l < c.n → ∀ l2, l2 < c.n → c.sigma l = c.sigma l2 → l = l2
  rowsLt : ∀ p, p < c.procs → ∀ i, i < c.mLoc p → c.fstRow p + i < c.n
  rtp : ∀ l, l < c.n → c.rowToProc l < c.procs
    ∧ c.fstRow (c.rowToProc l) ≤ l
    ∧ l < c.fstRow (c.rowToProc l) + c.mLoc (c.rowToProc l)
  rtpUniq : ∀ p, p < c.procs → ∀ i, i < c.mLoc p → c.rowToProc (c.fstRow p + i) = p
  ldbOk : ∀ p, p < c.procs → c.mLoc p ≤ c.ldb p
  addrInj : ∀ k, k < c.nsupers → ∀ k2, k2 < c.nsupers →
    ∀ i, i < c.superSize k → ∀ i2, i2 < c.superSize k2 →
    ∀ j, j < c.nrhs → ∀ j2, j2 < c.nrhs →
    c.grid.diagOwner k = c.grid.diagOwner k2 →
    c.addr (c.grid.diagOwner k) k i j = c.addr (c.grid.diagOwner k2) k2 i2 j2 →
    k = k2 ∧ i = i2 ∧ j = j2
  hdrNoAlias : ∀ k, k < c.nsupers → ∀ k2, k2 < c.nsupers →
    ∀ i, i < c.superSize k2 → ∀ j, j < c.nrhs →
    c.grid.diagOwner k = c.grid.diagOwner k2 →
    c.hdr (c.grid.diagOwner k) k ≠ c.addr (c.grid.diagOwner k2) k2 i j
  hdrInj : ∀ k, k < c.nsupers → ∀ k2, k2 < c.nsupers →
    c.grid.diagOwner k = c.grid.diagOwner k2 →
    c.hdr (c.grid.diagOwner k) k = c.hdr (c.grid.diagOwner k2) k2 → k = k2

/-- Concrete single-process redistribution setup with two size-1 supernodes
in which the row permutation swaps the two rows (perm_c is the identity). -/
def cexRC : RConfig :=
  { grid := ⟨1, 1⟩
  , nsupers := 2
  , xsup := fun k => k
  , supno := fun i => min i 1
  , permR := fun l => if l = 0 then 1 else if l = 1 then 0 else l
  , permC := fun l => l
  , n := 2
  , nrhs := 1
  , fstRow := fun _ => 0
  , mLoc := fun _ => 2
  , ldb := fun _ => 2
  , rowToProc := fun _ => 0
  , ilsum := fun _ lk => lk }

/-- The same setup with both permutations the identity. -/
def idRC : RConfig := { cexRC with permR := fun l => l }

/-- A concrete right-hand side on the single process: B[0] = 10, B[1] = 20. -/
def cexB : Nat → Nat → ℚ :=
  fun _ a => if a = 0 then 10 else if a = 1 then 20 else 0

/-! ### Message tags and headers (src/SRC/pdgstrs.c lines 973-984, 1290-1293,
1405, 1455, 1560-1561, 1935-1937, 2005-2019) -/

/-- Modelled from the spec: the compile-time tag macro Xk of the missing
header file (superlu_defs.h is not under src/), passed to every U-sweep
MPI_Isend of an X block regardless of the supernode number; a single fixed
constant, whose numeric value is immaterial to the theorems below. -/
def XkTag : Nat := 0

/-- Modelled from the spec: the compile-time tag macro LSUM of the missing
header file, distinct from Xk; used for every U-sweep LSUM message. -/
def LSUMTag : Nat := 1

/-- The two message classes of a sweep. -/
inductive MsgClass where
  | xcls
  | lsumcls
deriving Repr, DecidableEq

/-- The L-sweep receiver's dispatch (src lines 1405 and 1455): a tag below
nsupers is an X broadcast, a tag in [nsupers, 2*nsupers) an LSUM message, and
anything else falls through unhandled. -/
def classifyL (nsupers tag : Nat) : Option MsgClass :=
  if tag < nsupers then some MsgClass.xcls
  else if tag < 2 * nsupers then some MsgClass.lsumcls
  else none

/-- The tag the U-sweep sender attaches to X_k (src lines 1935 and 2089):
the constant Xk, independent of k. -/
def uXTag (_k : Nat) : Nat := XkTag

/-- The tag of a U-sweep LSUM message: the constant LSUM. -/
def uLsumTag (_k : Nat) : Nat := LSUMTag

/-- The U-sweep receiver's dispatch (src lines 2005-2019): a switch on the
two constant tags. -/
def classifyU (tag : Nat) : Option MsgClass :=
  if tag = XkTag then some MsgClass.xcls
  else if tag = LSUMTag then some MsgClass.lsumcls
  else none

/-- The lsum header setup loop (src lines 973-984): for every supernode k of
this process row, the header word of its lsum block is set to k. -/
def setupLsumHeaders (nsupers nprow myrow : Nat) (ilsum : Nat → Nat) (nrhs : Nat)
    (lsum : Nat → ℚ) : Nat → ℚ :=
  (List.range nsupers).foldl
    (fun f k =>
      if k % nprow = myrow
      then fun a => if a = lsumBlk ilsum nrhs (k / nprow) - LSUM_H then (k : ℚ) else f a
      else f) lsum

end SuperluDist

/-! ## Theorems -/

namespace SuperluDist

/-- C2 counterexample: at n = -1, nrhs = 3 the entry of pdgstrs does set
*info = -1 and return, but the allocation list is not empty: the msgcnt buffer
was already allocated at its declaration, before the argument tests ran. -/
theorem pdgstrs_allocates_before_validation :
    (pdgstrsEntry (-1) 3).info = -1 ∧ (pdgstrsEntry (-1) 3).earlyReturn = true ∧
      (pdgstrsEntry (-1) 3).allocs ≠ [] := by
  decide

/-- C2 (amended): pdgstrs validates its arguments: *info becomes -1 when
n < 0, -9 when n ≥ 0 and nrhs < 0, and 0 when both are legal; a nonzero *info
causes an immediate return on which the only allocation performed is the
4-element msgcnt bookkeeping buffer allocated at its declaration, before the
tests; none of the solver's working storage is allocated on that path. -/
theorem pdgstrs_validates_args (n nrhs : Int) :
    (n < 0 → (pdgstrsEntry n nrhs).info = -1)
    ∧ (0 ≤ n → nrhs < 0 → (pdgstrsEntry n nrhs).info = -9)
    ∧ (0 ≤ n → 0 ≤ nrhs →
        (pdgstrsEntry n nrhs).info = 0 ∧ (pdgstrsEntry n nrhs).earlyReturn = false)
    ∧ ((pdgstrsEntry n nrhs).info ≠ 0 →
        (pdgstrsEntry n nrhs).earlyReturn = true
        ∧ (pdgstrsEntry n nrhs).allocs = [Buf.msgcnt]) := by
  refine ⟨?_, ?_, ?_, ?_⟩
  · intro hn
    simp [pdgstrsEntry, hn]
  · intro hn hr
    have hn2 : ¬ n < 0 := by omega
    simp [pdgstrsEntry, hn2, hr]
  · intro hn hr
    have hn2 : ¬ n < 0 := by omega
    have hr2 : ¬ nrhs < 0 := by omega
    simp [pdgstrsEntry, hn2, hr2]
  · intro h
    by_cases hn : n < 0
    · simp [pdgstrsEntry, hn]
    · by_cases hr : nrhs < 0
      · simp [pdgstrsEntry, hn, hr]
      · exfalso
        apply h
        simp [pdgstrsEntry, hn, hr]

/-- Witness for C2: the three info codes at concrete arguments. -/
theorem pdgstrs_validates_args_witness :
    (pdgstrsEntry (-1) 3).info = -1 ∧ (pdgstrsEntry 4 (-2)).info = -9 ∧
      (pdgstrsEntry 4 3).info = 0 :=
  ⟨(pdgstrs_validates_args (-1) 3).1 (by decide),
   (pdgstrs_validates_args 4 (-2)).2.1 (by decide) (by decide),
   ((pdgstrs_validates_args 4 3).2.2.1 (by decide) (by decide)).1⟩

/-- C3 counterexample: on a 1-by-1 diagonal block whose U diagonal entry is
exactly zero, the inversion kernel reports the zero pivot (INFO = 1), yet
pdCompute_Diag_Inv leaves the caller's *info at its incoming value 0: the
report is discarded and nothing nonzero is propagated. -/
theorem pdCompute_Diag_Inv_silent_on_singular :
    (pdComputeDiagInv [⟨1, 1, fun _ => 0⟩] 0).kernelReports = [0, 1]
    ∧ (pdComputeDiagInv [⟨1, 1, fun _ => 0⟩] 0).infoOut = 0 := by
  constructor
  · rfl
  · rfl

/-- Closed form of the mod_bit fold: slot lk is 1 exactly when some visited
supernode k with PROW(k) = myrow, an off-diagonal position, and a nonzero bmod
maps to it via LBi. -/
theorem modBit_fold (c : URowConfig) (q : Nat) (l : List Nat) (arr : Nat → Int) (lk : Nat) :
    (l.foldl
      (fun arr k =>
        if c.myrow = k % c.nprow ∧ q ≠ k % c.npcol ∧ c.bmodOf q (k / c.nprow) ≠ 0
        then fun lk2 => if lk2 = k / c.nprow then 1 else arr lk2
        else arr) arr) lk
    = if ∃ k ∈ l, (c.myrow = k % c.nprow ∧ q ≠ k % c.npcol
          ∧ c.bmodOf q (k / c.nprow) ≠ 0) ∧ k / c.nprow = lk
      then 1 else arr lk := by
  induction l generalizing arr with
  | nil => simp
  | cons k0 ks ih =>
    simp only [List.foldl_cons]
    rw [ih]
    by_cases hex : ∃ k ∈ ks, (c.myrow = k % c.nprow ∧ q ≠ k % c.npcol
        ∧ c.bmodOf q (k / c.nprow) ≠ 0) ∧ k / c.nprow = lk
    · rw [if_pos hex, if_pos]
      obtain ⟨k, hk, hkp⟩ := hex
      exact ⟨k, List.mem_cons_of_mem _ hk, hkp⟩
    · rw [if_neg hex]
      by_cases hP : c.myrow = k0 % c.nprow ∧ q ≠ k0 % c.npcol
          ∧ c.bmodOf q (k0 / c.nprow) ≠ 0
      · rw [if_pos hP]
        by_cases h0 : lk = k0 / c.nprow
        · rw [if_pos h0, if_pos]
          exact ⟨k0, List.mem_cons_self _ _, hP, h0.symm⟩
        · rw [if_neg h0, if_neg]
          rintro ⟨k, hk, hkp, hkl⟩
          rcases List.mem_cons.mp hk with h | h
          · exact h0 (h ▸ hkl).symm
          · exact hex ⟨k, h, hkp, hkl⟩
      · rw [if_neg hP, if_neg]
        rintro ⟨k, hk, hkp, hkl⟩
        rcases List.mem_cons.mp hk with h | h
        · exact hP (h ▸ hkp)
        · exact hex ⟨k, h, hkp, hkl⟩

/-- A sum of 0/1 indicators over a list is the length of the filtered list. -/
theorem sum_indicator (l : List Nat) (p : Nat → Prop) [DecidablePred p] :
    (l.map (fun q => if p q then (1 : Int) else 0)).sum
      = ((l.filter (fun q => decide (p q))).length : Int) := by
  induction l with
  | nil => simp
  | cons a t ih =>
    by_cases h : p a
    · simp [h, ih]
      ring
    · simp [h, ih]

/-- Folding addition of f over a list starting from init is init plus the sum. -/
theorem foldl_add_eq (f : Nat → Int) (l : List Nat) (init : Int) :
    l.foldl (fun a k => a + f k) init = init + (l.map f).sum := by
  induction l generalizing init with
  | nil => simp
  | cons a t ih => simp [ih]; ring

/-- brecv for the block row of supernode k equals the number of contributing
processes in the row scope. -/
theorem brecv_eq_contributors (c : URowConfig) (k : Nat)
    (hk : k < c.nsupers) (hkrow : c.myrow = k % c.nprow) :
    brecvArr c (k / c.nprow) = ((contributors c k).length : Int) := by
  unfold brecvArr contributors
  have key : ∀ q, modBitArr c q (k / c.nprow)
      = if q ≠ k % c.npcol ∧ c.bmodOf q (k / c.nprow) ≠ 0 then (1 : Int) else 0 := by
    intro q
    unfold modBitArr
    rw [modBit_fold]
    by_cases hq : q ≠ k % c.npcol ∧ c.bmodOf q (k / c.nprow) ≠ 0
    · rw [if_pos hq, if_pos]
      exact ⟨k, List.mem_range.mpr hk, ⟨hkrow, hq.1, hq.2⟩, rfl⟩
    · rw [if_neg hq, if_neg]
      rintro ⟨k2, hk2, ⟨h1, h2, h3⟩, h4⟩
      have e1 : k2 % c.nprow = k % c.nprow := by omega
      have e2 := Nat.div_add_mod k2 c.nprow
      have e3 := Nat.div_add_mod k c.nprow
      rw [h4] at e2
      have ekk : k2 = k := by omega
      exact hq ⟨ekk ▸ h2, by rw [← h4]; exact h3⟩
  rw [List.map_congr_left (fun q _ => key q)]
  exact sum_indicator _ _

/-- C8: before the U-sweep, (1) brecv for every block-row of a supernode k in
this process row equals the number of off-diagonal processes in the row scope
holding a nonzero bmod count for that block-row, via the single mod_bit
sum-reduction; (2) nbrecvmod on the diagonal process is the sum of these
contributor counts over its diagonal-owned supernodes; (3) nroot counts
exactly the diagonal-owned supernodes with no contributor and a zero own bmod
count. -/
theorem brecv_precomputation (c : URowConfig) :
    (∀ k, k < c.nsupers → c.myrow = k % c.nprow →
        brecvArr c (k / c.nprow) = ((contributors c k).length : Int))
    ∧ (∀ mycol, nbrecvmodOf c mycol
        = (((List.range c.nsupers).filter
              (fun k => decide (c.myrow = k % c.nprow ∧ mycol = k % c.npcol))).map
            (fun k => ((contributors c k).length : Int))).sum)
    ∧ (∀ mycol, nrootOf c mycol
        = ((List.range c.nsupers).filter
            (fun k => decide (c.myrow = k % c.nprow ∧ mycol = k % c.npcol
                ∧ contributors c k = [] ∧ c.bmodOf mycol (k / c.nprow) = 0))).length) := by
  refine ⟨fun k hk hkrow => brecv_eq_contributors c k hk hkrow, fun mycol => ?_, fun mycol => ?_⟩
  · unfold nbrecvmodOf
    rw [foldl_add_eq, zero_add]
    apply congrArg
    apply List.map_congr_left
    intro k hkmem
    obtain ⟨hkr, hkp⟩ := List.mem_filter.mp hkmem
    obtain ⟨h1, _⟩ := of_decide_eq_true hkp
    exact brecv_eq_contributors c k (List.mem_range.mp hkr) h1
  · unfold nrootOf
    apply congrArg
    apply List.filter_congr
    intro k hkr
    have hk := List.mem_range.mp hkr
    rw [decide_eq_decide]
    constructor
    · rintro ⟨h1, h2, h3, h4⟩
      refine ⟨h1, h2, ?_, h4⟩
      rw [brecv_eq_contributors c k hk h1] at h3
      have : (contributors c k).length = 0 := by exact_mod_cast h3
      exact List.length_eq_zero.mp this
    · rintro ⟨h1, h2, h3, h4⟩
      refine ⟨h1, h2, ?_, h4⟩
      rw [brecv_eq_contributors c k hk h1, h3]
      simp

/-- Witness for C8 at a concrete 1-row, 2-column configuration with one
supernode: the off-diagonal process (column 1) holds bmod = 1, so the diagonal
process (column 0) sees brecv = 1 and counts no root. -/
theorem brecv_precomputation_witness :
    brecvArr ⟨1, 2, 0, 1, 1, fun q _ => if q = 1 then 1 else 0⟩ 0 = 1
    ∧ nrootOf ⟨1, 2, 0, 1, 1, fun q _ => if q = 1 then 1 else 0⟩ 0 = 0 := by
  constructor
  · have h := (brecv_precomputation ⟨1, 2, 0, 1, 1, fun q _ => if q = 1 then 1 else 0⟩).1
      0 (by decide) (by decide)
    simpa using h
  · have h := (brecv_precomputation ⟨1, 2, 0, 1, 1, fun q _ => if q = 1 then 1 else 0⟩).2.2 0
    simpa using h

/-- C3 (amended): pdCompute_Diag_Inv never writes *info: for every block list
and every incoming info value, the routine proceeds over all blocks (two kernel
invocations per block, the unit-lower one never reporting singularity), sets
Llu->inv = 1, and returns with *info exactly as it was; the kernel's zero-pivot
report is discarded. -/
theorem pdCompute_Diag_Inv_ignores_info (blocks : List DiagBlock) (info0 : Int) :
    (pdComputeDiagInv blocks info0).infoOut = info0
    ∧ (pdComputeDiagInv blocks info0).inv = 1
    ∧ (pdComputeDiagInv blocks info0).kernelReports.length = 2 * blocks.length := by
  refine ⟨rfl, rfl, ?_⟩
  unfold pdComputeDiagInv
  simp [List.length_flatMap]
  induction blocks with
  | nil => simp
  | cons b bs ih => simp [ih]; ring

theorem countX_cons (m : LMsg) (ms : List LMsg) :
    countX (m :: ms) = countX ms + (match m with | .xmsg _ => 1 | .lsumMsg _ => 0) := by
  cases m <;> simp [countX, List.filter_cons]

theorem countL_cons (m : LMsg) (ms : List LMsg) :
    countL (m :: ms) = countL ms + (match m with | .xmsg _ => 0 | .lsumMsg _ => 1) := by
  cases m <;> simp [countL, List.filter_cons]

/-- Every message is in exactly one tag class, so the two counts partition the
stream. -/
theorem countX_add_countL (ms : List LMsg) : countX ms + countL ms = ms.length := by
  induction ms with
  | nil => simp [countX, countL]
  | cons m ms ih =>
    rw [countX_cons, countL_cons]
    cases m <;> simp <;> omega

/-- Drain lemma: when the counters equal the number of messages of each class
still to arrive, the loop consumes the entire stream, one message per
iteration, and ends with both counters at zero. -/
theorem serviceLoop_drain (c : LoopCfg) (s : LoopSt) (ms : List LMsg)
    (hx : s.nfrecvx = (countX ms : Int)) (hl : s.nfrecvmod = (countL ms : Int)) :
    (serviceLoop c s ms).1.nfrecvx = 0 ∧ (serviceLoop c s ms).1.nfrecvmod = 0
      ∧ (serviceLoop c s ms).2.1 = ms.length := by
  induction ms generalizing s with
  | nil =>
    simp [countX, countL] at hx hl
    simp [serviceLoop, hx, hl]
  | cons m ms ih =>
    have hcx := countX_cons m ms
    have hcl := countL_cons m ms
    have hne : ¬ (s.nfrecvx = 0 ∧ s.nfrecvmod = 0) := by
      cases m with
      | xmsg k =>
        simp at hcx
        intro h
        rw [h.1] at hx
        omega
      | lsumMsg k =>
        simp at hcl
        intro h
        rw [h.2] at hl
        omega
    have hx2 : (procLMsg c s m).nfrecvx = (countX ms : Int) := by
      cases m with
      | xmsg k => simp [procLMsg]; simp at hcx; omega
      | lsumMsg k => simp [procLMsg]; simp at hcx; omega
    have hl2 : (procLMsg c s m).nfrecvmod = (countL ms : Int) := by
      cases m with
      | xmsg k => simp [procLMsg]; simp at hcl; omega
      | lsumMsg k => simp [procLMsg]; simp at hcl; omega
    have := ih (procLMsg c s m) hx2 hl2
    simp only [serviceLoop, if_neg hne]
    exact ⟨this.1, this.2.1, by simp [this.2.2]⟩

/-- Every receive-slot index recorded by the loop is bounded by the starting
slot plus the number of X messages in the stream. -/
theorem serviceLoop_slots_le (c : LoopCfg) (s : LoopSt) (ms : List LMsg) :
    ∀ slot ∈ (serviceLoop c s ms).2.2, slot ≤ s.nfrecvxBuf + countX ms := by
  induction ms generalizing s with
  | nil => simp [serviceLoop]
  | cons m ms ih =>
    by_cases hg : s.nfrecvx = 0 ∧ s.nfrecvmod = 0
    · simp [serviceLoop, hg]
    · simp only [serviceLoop, if_neg hg]
      intro slot hslot
      rcases List.mem_cons.mp hslot with h | h
      · subst h
        omega
      · have hih := ih (procLMsg c s m) slot h
        cases m with
        | xmsg k =>
          have hb : (procLMsg c s (LMsg.xmsg k)).nfrecvxBuf ≤ s.nfrecvxBuf + 1 := by
            simp only [procLMsg]
            by_cases hd : 0 < c.destCount k <;> simp [hd]
          have hcx : countX (LMsg.xmsg k :: ms) = countX ms + 1 := by
            simpa using countX_cons (LMsg.xmsg k) ms
          omega
        | lsumMsg k =>
          have hb : (procLMsg c s (LMsg.lsumMsg k)).nfrecvxBuf = s.nfrecvxBuf := rfl
          have hcx : countX (LMsg.lsumMsg k :: ms) = countX ms := by
            simpa using countX_cons (LMsg.lsumMsg k) ms
          omega

/-- The final forward-buffer slot is bounded by the starting slot plus the
number of X messages in the stream. -/
theorem serviceLoop_buf_le (c : LoopCfg) (s : LoopSt) (ms : List LMsg) :
    (serviceLoop c s ms).1.nfrecvxBuf ≤ s.nfrecvxBuf + countX ms := by
  induction ms generalizing s with
  | nil => simp [serviceLoop]
  | cons m ms ih =>
    by_cases hg : s.nfrecvx = 0 ∧ s.nfrecvmod = 0
    · simp [serviceLoop, hg]
    · simp only [serviceLoop, if_neg hg]
      have hih := ih (procLMsg c s m)
      cases m with
      | xmsg k =>
        have hb : (procLMsg c s (LMsg.xmsg k)).nfrecvxBuf ≤ s.nfrecvxBuf + 1 := by
          simp only [procLMsg]
          by_cases hd : 0 < c.destCount k <;> simp [hd]
        have hcx : countX (LMsg.xmsg k :: ms) = countX ms + 1 := by
          simpa using countX_cons (LMsg.xmsg k) ms
        omega
      | lsumMsg k =>
        have hb : (procLMsg c s (LMsg.lsumMsg k)).nfrecvxBuf = s.nfrecvxBuf := rfl
        have hcx : countX (LMsg.lsumMsg k :: ms) = countX ms := by
          simpa using countX_cons (LMsg.lsumMsg k) ms
        omega

/-- C7: the L-sweep service loop runs while nfrecvx or nfrecvmod is nonzero;
each iteration processes one message and decrements exactly one of the two
counters by one (an X message decrements nfrecvx and leaves nfrecvmod, an LSUM
message the reverse); with the counters matching the stream, the loop
terminates after exactly (initial nfrecvx + initial nfrecvmod) iterations with
both counters at zero; and every non-null broadcast tree and reduction tree is
in the post-loop wait list executed before the backward sweep begins. -/
theorem l_service_loop_termination (c : LoopCfg) (t : TreeCfg) (s : LoopSt) (ms : List LMsg)
    (hx : s.nfrecvx = (countX ms : Int)) (hl : s.nfrecvmod = (countL ms : Int)) :
    ((serviceLoop c s ms).1.nfrecvx = 0 ∧ (serviceLoop c s ms).1.nfrecvmod = 0)
    ∧ ((serviceLoop c s ms).2.1 = countX ms + countL ms)
    ∧ (∀ s2 k, (procLMsg c s2 (LMsg.xmsg k)).nfrecvx = s2.nfrecvx - 1
        ∧ (procLMsg c s2 (LMsg.xmsg k)).nfrecvmod = s2.nfrecvmod)
    ∧ (∀ s2 k, (procLMsg c s2 (LMsg.lsumMsg k)).nfrecvmod = s2.nfrecvmod - 1
        ∧ (procLMsg c s2 (LMsg.lsumMsg k)).nfrecvx = s2.nfrecvx)
    ∧ (∀ lk, lk < t.nsupersj → t.hasBtree lk = true → lk ∈ awaitedBtrees t)
    ∧ (∀ lk, lk < t.nsupersi → t.hasRtree lk = true → lk ∈ awaitedRtrees t) := by
  obtain ⟨h1, h2, h3⟩ := serviceLoop_drain c s ms hx hl
  refine ⟨⟨h1, h2⟩, ?_, ?_, ?_, ?_, ?_⟩
  · rw [h3, countX_add_countL]
  · intro s2 k
    simp [procLMsg]
  · intro s2 k
    simp [procLMsg]
  · intro lk hlk hb
    exact List.mem_filter.mpr ⟨List.mem_range.mpr hlk, hb⟩
  · intro lk hlk hb
    exact List.mem_filter.mpr ⟨List.mem_range.mpr hlk, hb⟩

/-- Witness for C7 at a concrete stream of one X and one LSUM message. -/
theorem l_service_loop_termination_witness :
    (serviceLoop ⟨2, 5, fun _ => 1⟩ ⟨1, 1, 0⟩ [LMsg.xmsg 0, LMsg.lsumMsg 1]).2.1 = 2
    ∧ (serviceLoop ⟨2, 5, fun _ => 1⟩ ⟨1, 1, 0⟩ [LMsg.xmsg 0, LMsg.lsumMsg 1]).1.nfrecvx = 0 := by
  have h := l_service_loop_termination ⟨2, 5, fun _ => 1⟩ ⟨1, 1, fun _ => true, fun _ => true⟩
    ⟨1, 1, 0⟩ [LMsg.xmsg 0, LMsg.lsumMsg 1] (by decide) (by decide)
  exact ⟨h.2.1, h.1.1⟩

/-- C10: starting from nfrecvx_buf = 0, when the stream carries at most the
initially expected number n0 of X broadcasts (n0 = nfrecvx at the allocation
site, src line 1145), the forward-buffer slot never exceeds n0, and every
receive window [slot*maxrecvsz, slot*maxrecvsz + maxrecvsz) lies inside the
allocated maxrecvsz*(nfrecvx+1) elements of recvbuf_BC_fwd. -/
theorem recvbuf_BC_fwd_in_bounds (c : LoopCfg) (s : LoopSt) (ms : List LMsg) (n0 : Nat)
    (hbuf : s.nfrecvxBuf = 0) (hcount : countX ms ≤ n0) :
    ((serviceLoop c s ms).1.nfrecvxBuf ≤ n0)
    ∧ (∀ slot ∈ (serviceLoop c s ms).2.2,
        slot ≤ n0 ∧ slot * c.maxrecvsz + c.maxrecvsz ≤ c.maxrecvsz * (n0 + 1)) := by
  constructor
  · have := serviceLoop_buf_le c s ms
    omega
  · intro slot hslot
    have h1 := serviceLoop_slots_le c s ms slot hslot
    have h2 : slot ≤ n0 := by omega
    refine ⟨h2, ?_⟩
    calc slot * c.maxrecvsz + c.maxrecvsz = (slot + 1) * c.maxrecvsz := by ring
    _ ≤ (n0 + 1) * c.maxrecvsz := Nat.mul_le_mul_right _ (by omega)
    _ = c.maxrecvsz * (n0 + 1) := Nat.mul_comm _ _

/-- Witness for C10 at a concrete stream. -/
theorem recvbuf_BC_fwd_in_bounds_witness :
    (serviceLoop ⟨2, 5, fun _ => 1⟩ ⟨1, 1, 0⟩ [LMsg.xmsg 0, LMsg.lsumMsg 1]).1.nfrecvxBuf ≤ 1 :=
  (recvbuf_BC_fwd_in_bounds ⟨2, 5, fun _ => 1⟩ ⟨1, 1, 0⟩ [LMsg.xmsg 0, LMsg.lsumMsg 1] 1
    (by decide) (by decide)).1

/-! ### Counter-discipline lemmas -/

theorem completeCheck_template (c : SolveCfg) (s : SolveSt) (lk : Nat) :
    (completeCheck c s lk).lluTemplate = s.lluTemplate := by
  unfold completeCheck
  split_ifs <;> rfl

theorem completeCheck_frecv (c : SolveCfg) (s : SolveSt) (lk : Nat) :
    (completeCheck c s lk).frecv = s.frecv := by
  unfold completeCheck
  split_ifs <;> rfl

theorem completeCheck_fmod_other (c : SolveCfg) (s : SolveSt) (lk lk2 : Nat)
    (h : lk ≠ lk2) : (completeCheck c s lk2).fmod lk = s.fmod lk := by
  unfold completeCheck
  split_ifs <;> simp [updArr, h]

theorem completeCheck_marked_count (c : SolveCfg) (s : SolveSt) (lk lk2 : Nat) :
    s.solved.count lk ≤ (completeCheck c s lk2).solved.count lk := by
  unfold completeCheck
  split_ifs <;> simp [List.count_append]

/-- The completion check appends to solved only a diagonal-local block whose
fmod and frecv are both exactly 0 at the check. -/
theorem completeCheck_solved (c : SolveCfg) (s : SolveSt) (lk : Nat) :
    (completeCheck c s lk).solved = s.solved
    ∨ ((completeCheck c s lk).solved = s.solved ++ [lk] ∧ c.diagLocal lk = true
        ∧ s.fmod lk = 0 ∧ s.frecv lk = 0) := by
  unfold completeCheck
  split_ifs with h1 h2
  · exact Or.inr ⟨rfl, h2, h1.1, h1.2⟩
  · exact Or.inl rfl
  · exact Or.inl rfl

theorem applyEv_template (c : SolveCfg) (s : SolveSt) (e : SEv) :
    (applyEv c s e).lluTemplate = s.lluTemplate := by
  cases e <;> simp [applyEv, completeCheck_template]

theorem runTrace_template (c : SolveCfg) (s : SolveSt) (es : List SEv) :
    (runTrace c s es).lluTemplate = s.lluTemplate := by
  induction es generalizing s with
  | nil => rfl
  | cons e es ih => rw [runTrace, ih, applyEv_template]

theorem leafStep_template (c : SolveCfg) (s : SolveSt) (lk : Nat) :
    (leafStep c s lk).lluTemplate = s.lluTemplate := by
  unfold leafStep
  split_ifs <;> rfl

theorem rootStep_template (c : SolveCfg) (s : SolveSt) (lk : Nat) :
    (rootStep c s lk).lluTemplate = s.lluTemplate := by
  unfold rootStep
  split_ifs <;> rfl

theorem leafPass_template (c : SolveCfg) (s : SolveSt) :
    (leafPass c s).lluTemplate = s.lluTemplate := by
  unfold leafPass
  generalize List.range c.nlb = l
  induction l generalizing s with
  | nil => rfl
  | cons a t ih => rw [List.foldl_cons, ih, leafStep_template]

theorem rootPass_template (c : SolveCfg) (s : SolveSt) :
    (rootPass c s).lluTemplate = s.lluTemplate := by
  unfold rootPass
  generalize List.range c.nlb = l
  induction l generalizing s with
  | nil => rfl
  | cons a t ih => rw [List.foldl_cons, ih, rootStep_template]

theorem completeCheck_fmod_le (c : SolveCfg) (s : SolveSt) (lk lk2 : Nat) :
    (completeCheck c s lk).fmod lk2 ≤ s.fmod lk2 := by
  unfold completeCheck
  split_ifs with h1 h2
  · simp only [updArr]
    by_cases he : lk2 = lk
    · subst he
      simp [h1.1]
    · simp [he]
  · simp only [updArr]
    by_cases he : lk2 = lk
    · subst he
      simp [h1.1]
    · simp [he]
  · exact le_refl _

theorem applyEv_fmod_le (c : SolveCfg) (s : SolveSt) (e : SEv) (lk2 : Nat) :
    (applyEv c s e).fmod lk2 ≤ s.fmod lk2 := by
  cases e with
  | upd lk3 =>
    have h := completeCheck_fmod_le c
      { s with fmod := updArr s.fmod lk3 (s.fmod lk3 - 1) } lk3 lk2
    simp only [updArr] at h
    by_cases he : lk2 = lk3
    · subst he
      simp only [applyEv]
      simp at h
      omega
    · simp only [applyEv]
      simp [he] at h
      exact h
  | recvl lk3 =>
    have h := completeCheck_fmod_le c
      { s with frecv := updArr s.frecv lk3 (s.frecv lk3 - 1) } lk3 lk2
    exact h

/-- frecv accounting: every event changes frecv[lk] by exactly the number of
recvl-lk events it contains (one for recvl lk, zero otherwise). -/
theorem applyEv_frecv_acc (c : SolveCfg) (s : SolveSt) (e : SEv) (lk : Nat) :
    (applyEv c s e).frecv lk
      = s.frecv lk - (if e = SEv.recvl lk then 1 else 0) := by
  cases e with
  | upd lk3 =>
    simp only [applyEv, completeCheck_frecv]
    simp
  | recvl lk3 =>
    simp only [applyEv, completeCheck_frecv]
    by_cases he : lk3 = lk
    · subst he
      simp [updArr]
    · simp [updArr, he, Ne.symm he]

theorem applyEv_frecv_le (c : SolveCfg) (s : SolveSt) (e : SEv) (lk : Nat) :
    (applyEv c s e).frecv lk ≤ s.frecv lk := by
  rw [applyEv_frecv_acc]
  split_ifs <;> omega

theorem runTrace_fmod_le (c : SolveCfg) (s : SolveSt) (es : List SEv) (lk : Nat) :
    (runTrace c s es).fmod lk ≤ s.fmod lk := by
  induction es generalizing s with
  | nil => exact le_refl _
  | cons e es ih =>
    rw [runTrace]
    exact le_trans (ih (applyEv c s e)) (applyEv_fmod_le c s e lk)

theorem runTrace_frecv_acc (c : SolveCfg) (s : SolveSt) (es : List SEv) (lk : Nat) :
    (runTrace c s es).frecv lk = s.frecv lk - (es.count (SEv.recvl lk) : Int) := by
  induction es generalizing s with
  | nil => simp [runTrace]
  | cons e es ih =>
    rw [runTrace, ih, applyEv_frecv_acc]
    by_cases he : e = SEv.recvl lk
    · subst he
      simp only [List.count_cons, if_pos rfl]
      simp
      ring
    · have h1 : (e :: es).count (SEv.recvl lk) = es.count (SEv.recvl lk) := by
        rw [List.count_cons]
        simp [he]
      rw [h1, if_neg he]
      ring

/-- Along any run, frecv[lk] never drops below its start value minus the
total number of recvl-lk events of the whole stream. -/
theorem traceStates_frecv_ge (c : SolveCfg) (lk : Nat) (es : List SEv) (s : SolveSt) :
    ∀ st ∈ traceStates c s es,
      s.frecv lk - (es.count (SEv.recvl lk) : Int) ≤ st.frecv lk := by
  induction es generalizing s with
  | nil =>
    intro st hst
    simp [traceStates] at hst
    subst hst
    simp
  | cons e es ih =>
    intro st hst
    rw [traceStates] at hst
    rcases List.mem_cons.mp hst with h | h
    · subst h
      have : (0 : Int) ≤ ((e :: es).count (SEv.recvl lk) : Int) := by positivity
      omega
    · have h1 := ih (applyEv c s e) st h
      have h2 := applyEv_frecv_acc c s e lk
      rw [List.count_cons] at *
      by_cases he : e = SEv.recvl lk
      · simp [he] at h1 h2 ⊢
        push_cast at *
        omega
      · have hne : ¬ (SEv.recvl lk = e) := fun h3 => he h3.symm
        simp [he, hne] at h1 h2 ⊢
        omega

theorem leafStep_frecv (c : SolveCfg) (s : SolveSt) (lk2 : Nat) :
    (leafStep c s lk2).frecv = s.frecv := by
  unfold leafStep
  split_ifs <;> rfl

theorem leafStep_fmod_other (c : SolveCfg) (s : SolveSt) (lk lk2 : Nat) (h : lk ≠ lk2) :
    (leafStep c s lk2).fmod lk = s.fmod lk := by
  unfold leafStep
  split_ifs <;> simp [updArr, h]

theorem leafStep_count_other (c : SolveCfg) (s : SolveSt) (lk lk2 : Nat) (h : lk ≠ lk2) :
    (leafStep c s lk2).solved.count lk = s.solved.count lk := by
  unfold leafStep
  split_ifs <;> simp [List.count_append, List.count_singleton, h]

/-- A leaf scan over block rows other than lk leaves lk's counters and solve
count untouched. -/
theorem leaf_fold_other (c : SolveCfg) (lk : Nat) :
    ∀ (l : List Nat), lk ∉ l → ∀ s : SolveSt,
      ((l.foldl (leafStep c) s).fmod lk = s.fmod lk
        ∧ (l.foldl (leafStep c) s).solved.count lk = s.solved.count lk) := by
  intro l
  induction l with
  | nil => intro _ s; exact ⟨rfl, rfl⟩
  | cons a t ih =>
    intro hmem s
    have ha : lk ≠ a := fun h => hmem (h ▸ List.mem_cons_self a t)
    have ht : lk ∉ t := fun h => hmem (List.mem_cons_of_mem a h)
    rw [List.foldl_cons]
    obtain ⟨h1, h2⟩ := ih ht (leafStep c s a)
    exact ⟨h1.trans (leafStep_fmod_other c s lk a ha),
           h2.trans (leafStep_count_other c s lk a ha)⟩

theorem leaf_fold_frecv (c : SolveCfg) :
    ∀ (l : List Nat) (s : SolveSt), (l.foldl (leafStep c) s).frecv = s.frecv := by
  intro l
  induction l with
  | nil => intro s; rfl
  | cons a t ih =>
    intro s
    rw [List.foldl_cons, ih, leafStep_frecv]

/-- Effect of the leaf scan on block row lk itself: if lk is a leaf when the
scan reaches it (diagonal-local, null reduction tree, fmod = 0) it is solved
exactly once and its fmod set to -1; otherwise it is untouched. -/
theorem leaf_fold_at (c : SolveCfg) (lk : Nat) :
    ∀ (l : List Nat), l.Nodup → lk ∈ l → ∀ s : SolveSt,
      ((l.foldl (leafStep c) s).fmod lk
          = (if c.diagLocal lk = true ∧ c.hasRtree lk = false ∧ s.fmod lk = 0
             then -1 else s.fmod lk))
      ∧ ((l.foldl (leafStep c) s).solved.count lk
          = s.solved.count lk
            + (if c.diagLocal lk = true ∧ c.hasRtree lk = false ∧ s.fmod lk = 0
               then 1 else 0)) := by
  intro l
  induction l with
  | nil =>
    intro _ hmem
    exact absurd hmem (List.not_mem_nil lk)
  | cons a t ih =>
    intro hnd hmem s
    rw [List.foldl_cons]
    by_cases ha : a = lk
    · subst ha
      have ht : a ∉ t := (List.nodup_cons.mp hnd).1
      obtain ⟨h1, h2⟩ := leaf_fold_other c a t ht (leafStep c s a)
      rw [h1, h2]
      unfold leafStep
      split_ifs with hc
      · simp [updArr, List.count_append, List.count_singleton]
      · simp
    · have hmem2 : lk ∈ t := by
        rcases List.mem_cons.mp hmem with h | h
        · exact absurd h.symm ha
        · exact h
      have hnd2 := (List.nodup_cons.mp hnd).2
      have := ih hnd2 hmem2 (leafStep c s a)
      rw [leafStep_fmod_other c s lk a (fun h => ha h.symm),
          leafStep_count_other c s lk a (fun h => ha h.symm)] at this
      exact this

/-- Case analysis of the completion check: it fires exactly on a block with
both counters at 0 (solving it when diagonal-local, marking it otherwise) and
is the identity elsewhere. -/
theorem completeCheck_fields (c : SolveCfg) (s : SolveSt) (lk : Nat) :
    (s.fmod lk = 0 ∧ s.frecv lk = 0 ∧ c.diagLocal lk = true
        ∧ completeCheck c s lk
            = { s with fmod := updArr s.fmod lk (-1), solved := s.solved ++ [lk] })
    ∨ (s.fmod lk = 0 ∧ s.frecv lk = 0 ∧ c.diagLocal lk = false
        ∧ completeCheck c s lk
            = { s with fmod := updArr s.fmod lk (-1), marked := s.marked ++ [lk] })
    ∨ (¬(s.fmod lk = 0 ∧ s.frecv lk = 0) ∧ completeCheck c s lk = s) := by
  unfold completeCheck
  split_ifs with h1 h2
  · exact Or.inl ⟨h1.1, h1.2, h2, rfl⟩
  · exact Or.inr (Or.inl ⟨h1.1, h1.2, by simpa using h2, rfl⟩)
  · exact Or.inr (Or.inr ⟨h1, rfl⟩)

/-- Invariant induction for the exactly-once property: once block lk has
fired, its solve count stays 1 and its fmod stays -1; while it has not fired,
its counters equal the numbers of its remaining events and are not both zero;
so a valid trace carrying exactly the remaining events ends with the block
solved exactly once and fmod = -1. -/
theorem runTrace_solved_once_aux (c : SolveCfg) (lk : Nat)
    (hdiag : c.diagLocal lk = true) :
    ∀ (es : List SEv) (s : SolveSt), ValidTrace c s es →
      ((s.solved.count lk = 1 ∧ s.fmod lk = -1)
        ∨ (s.solved.count lk = 0
            ∧ s.fmod lk = (es.count (SEv.upd lk) : Int)
            ∧ s.frecv lk = (es.count (SEv.recvl lk) : Int)
            ∧ ¬(s.fmod lk = 0 ∧ s.frecv lk = 0))) →
      (runTrace c s es).solved.count lk = 1 ∧ (runTrace c s es).fmod lk = -1 := by
  intro es
  induction es with
  | nil =>
    intro s _ hinv
    rcases hinv with ⟨h1, h2⟩ | ⟨h1, h2, h3, h4⟩
    · exact ⟨h1, h2⟩
    · exfalso
      simp at h2 h3
      exact h4 ⟨h2, h3⟩
  | cons e es ih =>
    intro s hval hinv
    obtain ⟨hev, hval2⟩ := hval
    rw [runTrace]
    apply ih (applyEv c s e) hval2
    cases e with
    | upd lk2 =>
      have happ : applyEv c s (SEv.upd lk2)
          = completeCheck c { s with fmod := updArr s.fmod lk2 (s.fmod lk2 - 1) } lk2 := rfl
      by_cases hlk : lk2 = lk
      · subst hlk
        rcases hinv with ⟨h1, h2⟩ | ⟨h1, h2, h3, h4⟩
        · exfalso
          have hev2 : lk2 < c.nlb ∧ 1 ≤ s.fmod lk2 := hev
          omega
        · have hcnt : ((SEv.upd lk2 :: es).count (SEv.upd lk2) : Int)
              = (es.count (SEv.upd lk2) : Int) + 1 := by
            rw [List.count_cons]
            simp
          have hcntr : (SEv.upd lk2 :: es).count (SEv.recvl lk2)
              = es.count (SEv.recvl lk2) := by
            rw [List.count_cons]
            simp
          rcases completeCheck_fields c
              { s with fmod := updArr s.fmod lk2 (s.fmod lk2 - 1) } lk2 with
            ⟨g1, g2, g3, g4⟩ | ⟨g1, g2, g3, g4⟩ | ⟨g1, g2⟩
          · left
            rw [happ, g4]
            constructor
            · simp [List.count_append, List.count_singleton, h1]
            · simp [updArr]
          · rw [g3] at hdiag
            exact absurd hdiag (by simp)
          · right
            rw [happ, g2]
            refine ⟨h1, ?_, ?_, g1⟩
            · show updArr s.fmod lk2 (s.fmod lk2 - 1) lk2 = _
              simp [updArr]
              rw [hcnt] at h2
              omega
            · show s.frecv lk2 = _
              rw [h3, hcntr]
      · have hcnt : (SEv.upd lk2 :: es).count (SEv.upd lk)
            = es.count (SEv.upd lk) := by
          rw [List.count_cons]
          simp [hlk]
        have hcntr : (SEv.upd lk2 :: es).count (SEv.recvl lk)
            = es.count (SEv.recvl lk) := by
          rw [List.count_cons]
          simp
        have hne : lk ≠ lk2 := fun h => hlk h.symm
        have hfm : (applyEv c s (SEv.upd lk2)).fmod lk = s.fmod lk := by
          rw [happ, completeCheck_fmod_other c _ lk lk2 hne]
          simp [updArr, hne]
        have hfr : (applyEv c s (SEv.upd lk2)).frecv lk = s.frecv lk := by
          rw [happ, completeCheck_frecv]
        have hcs : (applyEv c s (SEv.upd lk2)).solved.count lk
            = s.solved.count lk := by
          rw [happ]
          rcases completeCheck_fields c
              { s with fmod := updArr s.fmod lk2 (s.fmod lk2 - 1) } lk2 with
            ⟨_, _, _, g4⟩ | ⟨_, _, _, g4⟩ | ⟨_, g4⟩ <;> rw [g4] <;>
            simp [List.count_append, List.count_singleton, hne, hlk]
        rcases hinv with ⟨h1, h2⟩ | ⟨h1, h2, h3, h4⟩
        · exact Or.inl ⟨by rw [hcs]; exact h1, by rw [hfm]; exact h2⟩
        · refine Or.inr ⟨by rw [hcs]; exact h1, ?_, ?_, ?_⟩
          · rw [hfm, h2, hcnt]
          · rw [hfr, h3, hcntr]
          · rw [hfm, hfr]
            exact h4
    | recvl lk2 =>
      have happ : applyEv c s (SEv.recvl lk2)
          = completeCheck c { s with frecv := updArr s.frecv lk2 (s.frecv lk2 - 1) } lk2 := rfl
      by_cases hlk : lk2 = lk
      · subst hlk
        have hcnt : (SEv.recvl lk2 :: es).count (SEv.upd lk2)
            = es.count (SEv.upd lk2) := by
          rw [List.count_cons]
          simp
        have hcntr : ((SEv.recvl lk2 :: es).count (SEv.recvl lk2) : Int)
            = (es.count (SEv.recvl lk2) : Int) + 1 := by
          rw [List.count_cons]
          simp
        rcases hinv with ⟨h1, h2⟩ | ⟨h1, h2, h3, h4⟩
        · left
          rcases completeCheck_fields c
              { s with frecv := updArr s.frecv lk2 (s.frecv lk2 - 1) } lk2 with
            ⟨g1, g2, g3, g4⟩ | ⟨g1, g2, g3, g4⟩ | ⟨g1, g2⟩
          · exfalso
            have : s.fmod lk2 = 0 := g1
            omega
          · exfalso
            have : s.fmod lk2 = 0 := g1
            omega
          · rw [happ, g2]
            exact ⟨h1, h2⟩
        · rcases completeCheck_fields c
              { s with frecv := updArr s.frecv lk2 (s.frecv lk2 - 1) } lk2 with
            ⟨g1, g2, g3, g4⟩ | ⟨g1, g2, g3, g4⟩ | ⟨g1, g2⟩
          · left
            rw [happ, g4]
            constructor
            · simp [List.count_append, List.count_singleton, h1]
            · simp [updArr]
          · rw [g3] at hdiag
            exact absurd hdiag (by simp)
          · right
            rw [happ, g2]
            refine ⟨h1, ?_, ?_, g1⟩
            · show s.fmod lk2 = _
              rw [h2, hcnt]
            · show updArr s.frecv lk2 (s.frecv lk2 - 1) lk2 = _
              simp [updArr]
              rw [hcntr] at h3
              omega
      · have hcnt : (SEv.recvl lk2 :: es).count (SEv.upd lk)
            = es.count (SEv.upd lk) := by
          rw [List.count_cons]
          simp
        have hcntr : (SEv.recvl lk2 :: es).count (SEv.recvl lk)
            = es.count (SEv.recvl lk) := by
          rw [List.count_cons]
          simp [hlk]
        have hne : lk ≠ lk2 := fun h => hlk h.symm
        have hfm : (applyEv c s (SEv.recvl lk2)).fmod lk = s.fmod lk := by
          rw [happ, completeCheck_fmod_other c _ lk lk2 hne]
        have hfr : (applyEv c s (SEv.recvl lk2)).frecv lk = s.frecv lk := by
          rw [happ, completeCheck_frecv]
          simp [updArr, hne]
        have hcs : (applyEv c s (SEv.recvl lk2)).solved.count lk
            = s.solved.count lk := by
          rw [happ]
          rcases completeCheck_fields c
              { s with frecv := updArr s.frecv lk2 (s.frecv lk2 - 1) } lk2 with
            ⟨_, _, _, g4⟩ | ⟨_, _, _, g4⟩ | ⟨_, g4⟩ <;> rw [g4] <;>
            simp [List.count_append, List.count_singleton, hne, hlk]
        rcases hinv with ⟨h1, h2⟩ | ⟨h1, h2, h3, h4⟩
        · exact Or.inl ⟨by rw [hcs]; exact h1, by rw [hfm]; exact h2⟩
        · refine Or.inr ⟨by rw [hcs]; exact h1, ?_, ?_, ?_⟩
          · rw [hfm, h2, hcnt]
          · rw [hfr, h3, hcntr]
          · rw [hfm, hfr]
            exact h4

/-- C5 (amended): counter discipline of the L-sweep on one process.
(a) Every scheduler event leaves FMOD and FRECV non-increasing on every block
row.  (b) Along the run FRECV[lk] never goes negative -- in particular it is
never set to -1 -- and it ends at exactly 0.  (c) The completion check fires
only on a block whose FMOD and FRECV are both 0, and solves it only when it
is diagonal-local.  (d) Starting from the leaf pre-pass over the fresh copy
of the factor template, a valid trace delivering exactly FMOD-many local
updates and FRECV-many LSUM contributions for block lk ends with lk solved
exactly once and FMOD[lk] = -1 (set exactly once, at the solve). -/
theorem l_sweep_counter_discipline (c : SolveCfg) (template frecv0 : Nat → Int)
    (es : List SEv) (lk : Nat)
    (hdiag : c.diagLocal lk = true)
    (hrt : c.hasRtree lk = false ↔ frecv0 lk = 0)
    (hup : template lk = (es.count (SEv.upd lk) : Int))
    (hrc : frecv0 lk = (es.count (SEv.recvl lk) : Int))
    (hval : ValidTrace c (leafPass c (entryCopy template frecv0)) es)
    (hlk : lk < c.nlb) :
    (∀ s e lk2, (applyEv c s e).fmod lk2 ≤ s.fmod lk2
        ∧ (applyEv c s e).frecv lk2 ≤ s.frecv lk2)
    ∧ (∀ st ∈ traceStates c (leafPass c (entryCopy template frecv0)) es,
        0 ≤ st.frecv lk)
    ∧ ((runTrace c (leafPass c (entryCopy template frecv0)) es).frecv lk = 0)
    ∧ (∀ s lk2, (completeCheck c s lk2).solved ≠ s.solved →
        s.fmod lk2 = 0 ∧ s.frecv lk2 = 0 ∧ c.diagLocal lk2 = true)
    ∧ ((runTrace c (leafPass c (entryCopy template frecv0)) es).solved.count lk = 1)
    ∧ ((runTrace c (leafPass c (entryCopy template frecv0)) es).fmod lk = -1) := by
  have hfr0 : (leafPass c (entryCopy template frecv0)).frecv lk = frecv0 lk := by
    have := leaf_fold_frecv c (List.range c.nlb) (entryCopy template frecv0)
    exact congrFun this lk
  obtain ⟨hf, hcnt⟩ := leaf_fold_at c lk (List.range c.nlb) (List.nodup_range _)
    (List.mem_range.mpr hlk) (entryCopy template frecv0)
  have hcond : (c.diagLocal lk = true ∧ c.hasRtree lk = false
      ∧ (entryCopy template frecv0).fmod lk = 0)
      ↔ (template lk = 0 ∧ frecv0 lk = 0) := by
    constructor
    · rintro ⟨_, h2, h3⟩
      exact ⟨h3, hrt.mp h2⟩
    · rintro ⟨h1, h2⟩
      exact ⟨hdiag, hrt.mpr h2, h1⟩
  have hmain : (runTrace c (leafPass c (entryCopy template frecv0)) es).solved.count lk = 1
      ∧ (runTrace c (leafPass c (entryCopy template frecv0)) es).fmod lk = -1 := by
    apply runTrace_solved_once_aux c lk hdiag es _ hval
    by_cases hcase : template lk = 0 ∧ frecv0 lk = 0
    · left
      constructor
      · rw [show leafPass c (entryCopy template frecv0)
            = (List.range c.nlb).foldl (leafStep c) (entryCopy template frecv0) from rfl]
        rw [hcnt, if_pos (hcond.mpr hcase)]
        rfl
      · rw [show leafPass c (entryCopy template frecv0)
            = (List.range c.nlb).foldl (leafStep c) (entryCopy template frecv0) from rfl]
        rw [hf, if_pos (hcond.mpr hcase)]
    · right
      have hcondf : ¬ (c.diagLocal lk = true ∧ c.hasRtree lk = false
          ∧ (entryCopy template frecv0).fmod lk = 0) := fun h => hcase (hcond.mp h)
      refine ⟨?_, ?_, ?_, ?_⟩
      · rw [show leafPass c (entryCopy template frecv0)
            = (List.range c.nlb).foldl (leafStep c) (entryCopy template frecv0) from rfl]
        rw [hcnt, if_neg hcondf]
        rfl
      · rw [show leafPass c (entryCopy template frecv0)
            = (List.range c.nlb).foldl (leafStep c) (entryCopy template frecv0) from rfl]
        rw [hf, if_neg hcondf]
        exact hup
      · rw [hfr0]
        exact hrc
      · rintro ⟨h1, h2⟩
        apply hcase
        constructor
        · rw [show leafPass c (entryCopy template frecv0)
              = (List.range c.nlb).foldl (leafStep c) (entryCopy template frecv0) from rfl] at h1
          rw [hf, if_neg hcondf] at h1
          exact h1
        · rw [hfr0] at h2
          exact h2
  refine ⟨fun s e lk2 => ⟨applyEv_fmod_le c s e lk2, applyEv_frecv_le c s e lk2⟩,
    ?_, ?_, ?_, hmain.1, hmain.2⟩
  · intro st hst
    have := traceStates_frecv_ge c lk es (leafPass c (entryCopy template frecv0)) st hst
    rw [hfr0, hrc] at this
    omega
  · rw [runTrace_frecv_acc, hfr0, hrc]
    ring
  · intro s lk2 hne
    rcases completeCheck_fields c s lk2 with ⟨g1, g2, g3, _⟩ | ⟨_, _, _, g4⟩ | ⟨_, g2⟩
    · exact ⟨g1, g2, g3⟩
    · exfalso
      apply hne
      rw [g4]
    · exfalso
      apply hne
      rw [g2]

/-- C5 counterexample: in a complete valid solve of one block (initial
FMOD = 1, FRECV = 1; its one local update arrives, then its one LSUM
contribution), the block is solved exactly once and FMOD ends at -1, but
FRECV takes only the values 1, 1, 0 along the whole run -- it never reaches
-1, refuting the claim that FMOD and FRECV "each reach -1 exactly once per
solve". -/
theorem frecv_never_reaches_neg_one :
    (runTrace cexSolveCfg cexSolveSt cexTrace).solved = [0]
    ∧ ((traceStates cexSolveCfg cexSolveSt cexTrace).map (fun st => st.frecv 0)) = [1, 1, 0]
    ∧ ((traceStates cexSolveCfg cexSolveSt cexTrace).map
        (fun st => st.frecv 0)).all (fun v => v != -1) = true
    ∧ ValidTrace cexSolveCfg cexSolveSt cexTrace := by
  refine ⟨rfl, rfl, rfl, ⟨by decide, by decide⟩, ⟨by decide, by decide⟩, trivial⟩

/-- Witness for C5 at the concrete one-block configuration. -/
theorem l_sweep_counter_discipline_witness :
    (runTrace cexSolveCfg cexSolveSt cexTrace).solved.count 0 = 1
    ∧ (runTrace cexSolveCfg cexSolveSt cexTrace).fmod 0 = -1 := by
  have h := l_sweep_counter_discipline cexSolveCfg (fun _ => 1) (fun _ => 1) cexTrace 0
    (by decide) (by decide) (by decide) (by decide)
    ⟨⟨by decide, by decide⟩, ⟨by decide, by decide⟩, trivial⟩ (by decide)
  exact ⟨h.2.2.2.2.1, h.2.2.2.2.2⟩

/-! ### Redistribution lemmas -/

theorem applyWrites_not_written (x : Nat → ℚ) (ws : List (Nat × ℚ)) (a : Nat)
    (h : ∀ wv ∈ ws, wv.1 ≠ a) : applyWrites x ws a = x a := by
  induction ws generalizing x with
  | nil => rfl
  | cons w t ih =>
    simp only [applyWrites, List.foldl_cons]
    have := ih (fun a2 => if a2 = w.1 then w.2 else x a2)
      (fun wv hm => h wv (List.mem_cons_of_mem _ hm))
    simp only [applyWrites] at this
    rw [this]
    have hw : w.1 ≠ a := h w (List.mem_cons_self _ _)
    rw [if_neg (fun hc => hw hc.symm)]

/-- If some write in the list hits a, and every write hitting a carries the
value v, then after applying the list the cell holds v. -/
theorem applyWrites_const (x : Nat → ℚ) (ws : List (Nat × ℚ)) (a : Nat) (v : ℚ)
    (hex : ∃ wv ∈ ws, wv.1 = a)
    (hall : ∀ wv ∈ ws, wv.1 = a → wv.2 = v) : applyWrites x ws a = v := by
  induction ws generalizing x with
  | nil =>
    obtain ⟨wv, hm, _⟩ := hex
    exact absurd hm (List.not_mem_nil wv)
  | cons w t ih =>
    simp only [applyWrites, List.foldl_cons]
    by_cases hex2 : ∃ wv ∈ t, wv.1 = a
    · have := ih (fun a2 => if a2 = w.1 then w.2 else x a2) hex2
        (fun wv hm he => hall wv (List.mem_cons_of_mem _ hm) he)
      simpa [applyWrites] using this
    · have hnone : ∀ wv ∈ t, wv.1 ≠ a := by
        intro wv hm he
        exact hex2 ⟨wv, hm, he⟩
      have hw : w.1 = a := by
        obtain ⟨wv, hm, he⟩ := hex
        rcases List.mem_cons.mp hm with h1 | h1
        · rw [← h1]; exact he
        · exact absurd he (hnone wv h1)
      have := applyWrites_not_written (fun a2 => if a2 = w.1 then w.2 else x a2) t a hnone
      simp only [applyWrites] at this ⊢
      rw [this, if_pos hw.symm]
      exact hall w (List.mem_cons_self _ _) hw

theorem xsup_le (c : RConfig) (hs : ValidSetup c) :
    ∀ k2, k2 ≤ c.nsupers → ∀ k, k ≤ k2 → c.xsup k ≤ c.xsup k2 := by
  intro k2
  induction k2 with
  | zero =>
    intro _ k hk
    have hz : k = 0 := by omega
    rw [hz]
  | succ m ih =>
    intro hm k hk
    rcases Nat.lt_succ_iff_lt_or_eq.mp (Nat.lt_succ_of_le hk) with h | h
    · have h1 := ih (by omega) k (by omega)
      have h2 := hs.xsupMono m (by omega)
      omega
    · rw [h]

/-- The supernode containing row xsup k + i, for i inside supernode k, is k
itself, and the row is a legal global row. -/
theorem supno_block (c : RConfig) (hs : ValidSetup c) (k i : Nat)
    (hk : k < c.nsupers) (hi : i < c.superSize k) :
    c.supno (c.xsup k + i) = k ∧ c.xsup k + i < c.n := by
  have hsz : c.xsup k + i < c.xsup (k + 1) := by
    have := hs.xsupMono k hk
    unfold RConfig.superSize at hi
    omega
  have hrn : c.xsup k + i < c.n := by
    have h1 := xsup_le c hs c.nsupers (le_refl _) (k + 1) (by omega)
    rw [hs.xsupTop] at h1
    omega
  obtain ⟨h1, h2, h3⟩ := hs.supnoSpec (c.xsup k + i) hrn
  refine ⟨?_, hrn⟩
  by_contra hne
  rcases Nat.lt_or_ge (c.supno (c.xsup k + i)) k with h | h
  · have := xsup_le c hs c.nsupers (le_refl _) k (by omega)
    have h4 : c.xsup (c.supno (c.xsup k + i) + 1) ≤ c.xsup k :=
      xsup_le c hs k (by omega) _ (by omega)
    omega
  · have hlt : k < c.supno (c.xsup k + i) := by omega
    have h4 : c.xsup (k + 1) ≤ c.xsup (c.supno (c.xsup k + i)) :=
      xsup_le c hs _ (by omega) _ (by omega)
    omega

/-- The composed permutation, injective on [0, n), is surjective onto it. -/
theorem sigma_surj (c : RConfig) (hs : ValidSetup c) (r : Nat) (hr : r < c.n) :
    ∃ l, l < c.n ∧ c.sigma l = r := by
  classical
  let F : Fin c.n → Fin c.n := fun l => ⟨c.sigma l.1, hs.sigmaLt l.1 l.2⟩
  have hinj : Function.Injective F := by
    intro a b hab
    have : c.sigma a.1 = c.sigma b.1 := congrArg Fin.val hab
    exact Fin.ext (hs.sigmaInj a.1 a.2 b.1 b.2 this)
  have hsurj : Function.Surjective F := Finite.surjective_of_injective hinj
  obtain ⟨l, hl⟩ := hsurj ⟨r, hr⟩
  exact ⟨l.1, l.2, congrArg Fin.val hl⟩

theorem mem_scatterPackets (c : RConfig) (B : Nat → Nat → ℚ) (pk : BPacket) :
    pk ∈ scatterPackets c B
      ↔ ∃ p, p < c.procs ∧ ∃ i, i < c.mLoc p ∧ pk = mkBPacket c B p i := by
  unfold scatterPackets
  simp only [List.mem_flatMap, List.mem_map, List.mem_range]
  constructor
  · rintro ⟨p, hp, i, hi, he⟩
    exact ⟨p, hp, i, hi, he.symm⟩
  · rintro ⟨p, hp, i, hi, he⟩
    exact ⟨p, hp, i, hi, he.symm⟩

theorem mkBPacket_irow (c : RConfig) (B : Nat → Nat → ℚ) (p i : Nat) :
    (mkBPacket c B p i).irow = c.permutedRow p i := rfl

theorem mkBPacket_dest (c : RConfig) (B : Nat → Nat → ℚ) (p i : Nat) :
    (mkBPacket c B p i).dest = c.ownerOf (c.permutedRow p i) := rfl

theorem mkBPacket_vals (c : RConfig) (B : Nat → Nat → ℚ) (p i j : Nat) :
    (mkBPacket c B p i).vals j = B p (i + j * c.ldb p) := rfl

/-- After the scatter, the x slot of process d = owner(supernode of the
permuted row) at the offset of that row within its block holds exactly the
B value of the source row: the unique surviving write is the one the source
row's packet carried. -/
theorem scatterX_value (c : RConfig) (hs : ValidSetup c) (B : Nat → Nat → ℚ)
    (p i j : Nat) (hp : p < c.procs) (hi : i < c.mLoc p) (hj : j < c.nrhs) :
    scatterX c B (c.ownerOf (c.permutedRow p i))
      (c.addr (c.ownerOf (c.permutedRow p i)) (c.supno (c.permutedRow p i))
        (c.permutedRow p i - c.xsup (c.supno (c.permutedRow p i))) j)
      = B p (i + j * c.ldb p) := by
  have hl : c.fstRow p + i < c.n := hs.rowsLt p hp i hi
  have hrn : c.permutedRow p i < c.n := hs.sigmaLt _ hl
  obtain ⟨hkn, hxsk, hxsk1⟩ := hs.supnoSpec (c.permutedRow p i) hrn
  have hirel : c.permutedRow p i - c.xsup (c.supno (c.permutedRow p i))
      < c.superSize (c.supno (c.permutedRow p i)) := by
    unfold RConfig.superSize
    omega
  have hown : c.ownerOf (c.permutedRow p i)
      = c.grid.diagOwner (c.supno (c.permutedRow p i)) := rfl
  unfold scatterX
  apply applyWrites_const
  · refine ⟨(c.addr (c.ownerOf (c.permutedRow p i)) (c.supno (c.permutedRow p i))
        (c.permutedRow p i - c.xsup (c.supno (c.permutedRow p i))) j,
        (mkBPacket c B p i).vals j), ?_, rfl⟩
    rw [List.mem_flatMap]
    refine ⟨mkBPacket c B p i, ?_, ?_⟩
    · rw [List.mem_filter]
      exact ⟨(mem_scatterPackets c B _).mpr ⟨p, hp, i, hi, rfl⟩, decide_eq_true rfl⟩
    · unfold writesOfPacket
      exact List.mem_cons_of_mem _
        (List.mem_map.mpr ⟨j, List.mem_range.mpr hj, rfl⟩)
  · rintro wv hwv ha
    rw [List.mem_flatMap] at hwv
    obtain ⟨pk2, hpk2mem, hwv2⟩ := hwv
    rw [List.mem_filter] at hpk2mem
    obtain ⟨hpk2scatter, hpk2dest⟩ := hpk2mem
    obtain ⟨p2, hp2, i2, hi2, hpk2eq⟩ := (mem_scatterPackets c B pk2).mp hpk2scatter
    subst hpk2eq
    have hdest2 : c.ownerOf (c.permutedRow p2 i2) = c.ownerOf (c.permutedRow p i) :=
      of_decide_eq_true hpk2dest
    have hl2 : c.fstRow p2 + i2 < c.n := hs.rowsLt p2 hp2 i2 hi2
    have hr2n : c.permutedRow p2 i2 < c.n := hs.sigmaLt _ hl2
    obtain ⟨hk2n, hxs2, hxs21⟩ := hs.supnoSpec (c.permutedRow p2 i2) hr2n
    have hirel2 : c.permutedRow p2 i2 - c.xsup (c.supno (c.permutedRow p2 i2))
        < c.superSize (c.supno (c.permutedRow p2 i2)) := by
      unfold RConfig.superSize
      omega
    have hown2 : c.ownerOf (c.permutedRow p2 i2)
        = c.grid.diagOwner (c.supno (c.permutedRow p2 i2)) := rfl
    unfold writesOfPacket at hwv2
    rw [mkBPacket_irow] at hwv2
    rcases List.mem_cons.mp hwv2 with hhd | hval
    · exfalso
      have h1 : wv.1 = c.hdr (c.ownerOf (c.permutedRow p i))
          (c.supno (c.permutedRow p2 i2)) := by
        rw [hhd]
      apply hs.hdrNoAlias (c.supno (c.permutedRow p2 i2)) hk2n
        (c.supno (c.permutedRow p i)) hkn
        (c.permutedRow p i - c.xsup (c.supno (c.permutedRow p i))) hirel j hj
        (by rw [← hown2, ← hown, hdest2])
      rw [← hown2, hdest2, ← hown, ← h1, ha]
    · rw [List.mem_map] at hval
      obtain ⟨j2, hj2r, hj2eq⟩ := hval
      have hj2 : j2 < c.nrhs := List.mem_range.mp hj2r
      have h1 : wv.1 = c.addr (c.ownerOf (c.permutedRow p i))
          (c.supno (c.permutedRow p2 i2))
          (c.permutedRow p2 i2 - c.xsup (c.supno (c.permutedRow p2 i2))) j2 := by
        rw [← hj2eq]
      obtain ⟨hkk, hii, hjj⟩ := hs.addrInj (c.supno (c.permutedRow p2 i2)) hk2n
        (c.supno (c.permutedRow p i)) hkn _ hirel2 _ hirel j2 hj2 j hj
        (by rw [← hown2, ← hown, hdest2])
        (by rw [← hown2, hdest2, ← hown, ← h1, ha])
      have hr2r : c.permutedRow p2 i2 = c.permutedRow p i := by
        rw [hkk] at hxs2 hii
        omega
      have hll : c.fstRow p2 + i2 = c.fstRow p + i :=
        hs.sigmaInj _ hl2 _ hl hr2r
      have hpp : p2 = p := by
        have e1 := hs.rtpUniq p2 hp2 i2 hi2
        have e2 := hs.rtpUniq p hp i hi
        rw [hll] at e1
        exact e1.symm.trans e2
      have hii2 : i2 = i := by
        rw [hpp] at hll
        omega
      rw [← hj2eq]
      rw [mkBPacket_vals, hpp, hii2, hjj]

/-- After the scatter, the header word of every supernode's x block on its
diagonal owner holds the global block number k. -/
theorem scatterX_header (c : RConfig) (hs : ValidSetup c) (B : Nat → Nat → ℚ)
    (k : Nat) (hk : k < c.nsupers) :
    scatterX c B (c.grid.diagOwner k) (c.hdr (c.grid.diagOwner k) k) = (k : ℚ) := by
  have hsz : 0 < c.superSize k := by
    have := hs.xsupMono k hk
    unfold RConfig.superSize
    omega
  obtain ⟨hsup0, hrn⟩ := supno_block c hs k 0 hk hsz
  obtain ⟨l, hln, hsig⟩ := sigma_surj c hs (c.xsup k + 0) hrn
  obtain ⟨hq, hq1, hq2⟩ := hs.rtp l hln
  have hi : l - c.fstRow (c.rowToProc l) < c.mLoc (c.rowToProc l) := by omega
  have hlrow : c.fstRow (c.rowToProc l) + (l - c.fstRow (c.rowToProc l)) = l := by omega
  have hprow : c.permutedRow (c.rowToProc l) (l - c.fstRow (c.rowToProc l))
      = c.xsup k + 0 := by
    unfold RConfig.permutedRow
    rw [hlrow]
    exact hsig
  have hdest : c.ownerOf (c.permutedRow (c.rowToProc l) (l - c.fstRow (c.rowToProc l)))
      = c.grid.diagOwner k := by
    rw [hprow]
    unfold RConfig.ownerOf
    rw [hsup0]
  unfold scatterX
  apply applyWrites_const _ _ _ ((k : Nat) : ℚ)
  · refine ⟨(c.hdr (c.grid.diagOwner k) k, (k : ℚ)), ?_, rfl⟩
    rw [List.mem_flatMap]
    refine ⟨mkBPacket c B (c.rowToProc l) (l - c.fstRow (c.rowToProc l)), ?_, ?_⟩
    · rw [List.mem_filter]
      refine ⟨(mem_scatterPackets c B _).mpr ⟨c.rowToProc l, hq, _, hi, rfl⟩, ?_⟩
      rw [mkBPacket_dest, hdest]
      exact decide_eq_true rfl
    · unfold writesOfPacket
      rw [mkBPacket_irow, hprow, hsup0]
      exact List.mem_cons_self _ _
  · rintro wv hwv ha
    rw [List.mem_flatMap] at hwv
    obtain ⟨pk2, hpk2mem, hwv2⟩ := hwv
    rw [List.mem_filter] at hpk2mem
    obtain ⟨hpk2scatter, hpk2dest⟩ := hpk2mem
    obtain ⟨p2, hp2, i2, hi2, hpk2eq⟩ := (mem_scatterPackets c B pk2).mp hpk2scatter
    subst hpk2eq
    have hdest2 : c.ownerOf (c.permutedRow p2 i2) = c.grid.diagOwner k :=
      of_decide_eq_true hpk2dest
    have hl2 : c.fstRow p2 + i2 < c.n := hs.rowsLt p2 hp2 i2 hi2
    have hr2n : c.permutedRow p2 i2 < c.n := hs.sigmaLt _ hl2
    obtain ⟨hk2n, hxs2, hxs21⟩ := hs.supnoSpec (c.permutedRow p2 i2) hr2n
    have hirel2 : c.permutedRow p2 i2 - c.xsup (c.supno (c.permutedRow p2 i2))
        < c.superSize (c.supno (c.permutedRow p2 i2)) := by
      unfold RConfig.superSize
      omega
    have hown2 : c.ownerOf (c.permutedRow p2 i2)
        = c.grid.diagOwner (c.supno (c.permutedRow p2 i2)) := rfl
    unfold writesOfPacket at hwv2
    rw [mkBPacket_irow] at hwv2
    rcases List.mem_cons.mp hwv2 with hhd | hval
    · have hh : c.hdr (c.grid.diagOwner k) (c.supno (c.permutedRow p2 i2))
          = c.hdr (c.grid.diagOwner k) k := by
        have h1 : wv.1 = c.hdr (c.grid.diagOwner k) (c.supno (c.permutedRow p2 i2)) := by
          rw [hhd]
        rw [← h1, ha]
      have hkk := hs.hdrInj (c.supno (c.permutedRow p2 i2)) hk2n k hk
        (by rw [← hown2, hdest2]) (by rw [← hown2, hdest2, hh])
      rw [hhd]
      rw [hkk]
    · exfalso
      rw [List.mem_map] at hval
      obtain ⟨j2, hj2r, hj2eq⟩ := hval
      have hj2 : j2 < c.nrhs := List.mem_range.mp hj2r
      apply hs.hdrNoAlias k hk (c.supno (c.permutedRow p2 i2)) hk2n
        _ hirel2 j2 hj2 (by rw [← hown2, hdest2])
      rw [← hown2, hdest2, ← ha, ← hj2eq]

theorem mem_gatherPackets (c : RConfig) (x : Nat → Nat → ℚ) (pk : XPacket) :
    pk ∈ gatherPackets c x
      ↔ ∃ k, k < c.nsupers ∧ ∃ i, i < c.superSize k ∧
          pk = { dest := c.rowToProc (c.xsup k + i), row := c.xsup k + i
               , vals := fun j => x (c.grid.diagOwner k) (c.addr (c.grid.diagOwner k) k i j) } := by
  unfold gatherPackets
  simp only [List.mem_flatMap, List.mem_map, List.mem_range]
  constructor
  · rintro ⟨k, hk, i, hi, he⟩
    exact ⟨k, hk, i, hi, he.symm⟩
  · rintro ⟨k, hk, i, hi, he⟩
    exact ⟨k, hk, i, hi, he.symm⟩

/-- Round trip of one entry: after scatter and gather, entry (i, j) of
process p reappears on the process owning global row sigma(fst_row + i), at
local offset (sigma(fst_row + i) - fst_row) + j*ldb. -/
theorem roundTrip_value (c : RConfig) (hs : ValidSetup c) (B : Nat → Nat → ℚ)
    (p i j : Nat) (hp : p < c.procs) (hi : i < c.mLoc p) (hj : j < c.nrhs) :
    roundTrip c B (c.rowToProc (c.permutedRow p i))
      (c.permutedRow p i - c.fstRow (c.rowToProc (c.permutedRow p i))
        + j * c.ldb (c.rowToProc (c.permutedRow p i)))
      = B p (i + j * c.ldb p) := by
  have hl : c.fstRow p + i < c.n := hs.rowsLt p hp i hi
  have hrn : c.permutedRow p i < c.n := hs.sigmaLt _ hl
  obtain ⟨hkn, hxsk, hxsk1⟩ := hs.supnoSpec (c.permutedRow p i) hrn
  have hirel : c.permutedRow p i - c.xsup (c.supno (c.permutedRow p i))
      < c.superSize (c.supno (c.permutedRow p i)) := by
    unfold RConfig.superSize
    omega
  have hrow_eq : c.xsup (c.supno (c.permutedRow p i))
      + (c.permutedRow p i - c.xsup (c.supno (c.permutedRow p i)))
      = c.permutedRow p i := by omega
  obtain ⟨hq, hq1, hq2⟩ := hs.rtp (c.permutedRow p i) hrn
  have hldb := hs.ldbOk _ hq
  have hL : 0 < c.ldb (c.rowToProc (c.permutedRow p i)) := by omega
  unfold roundTrip gatherOut
  apply applyWrites_const
  · refine ⟨(c.xsup (c.supno (c.permutedRow p i))
        + (c.permutedRow p i - c.xsup (c.supno (c.permutedRow p i)))
        - c.fstRow (c.rowToProc (c.permutedRow p i))
        + j * c.ldb (c.rowToProc (c.permutedRow p i)),
      scatterX c B (c.grid.diagOwner (c.supno (c.permutedRow p i)))
        (c.addr (c.grid.diagOwner (c.supno (c.permutedRow p i)))
          (c.supno (c.permutedRow p i))
          (c.permutedRow p i - c.xsup (c.supno (c.permutedRow p i))) j)), ?_, ?_⟩
    · rw [List.mem_flatMap]
      refine ⟨XPacket.mk
          (c.rowToProc (c.xsup (c.supno (c.permutedRow p i))
            + (c.permutedRow p i - c.xsup (c.supno (c.permutedRow p i)))))
          (c.xsup (c.supno (c.permutedRow p i))
            + (c.permutedRow p i - c.xsup (c.supno (c.permutedRow p i))))
          (fun j2 => scatterX c B (c.grid.diagOwner (c.supno (c.permutedRow p i)))
              (c.addr (c.grid.diagOwner (c.supno (c.permutedRow p i)))
                (c.supno (c.permutedRow p i))
                (c.permutedRow p i - c.xsup (c.supno (c.permutedRow p i))) j2)), ?_, ?_⟩
      · rw [List.mem_filter]
        constructor
        · exact (mem_gatherPackets c _ _).mpr
            ⟨c.supno (c.permutedRow p i), hkn, _, hirel, rfl⟩
        · apply decide_eq_true
          show c.rowToProc _ = c.rowToProc (c.permutedRow p i)
          rw [hrow_eq]
      · rw [List.mem_map]
        exact ⟨j, List.mem_range.mpr hj, rfl⟩
    · rw [hrow_eq]
  · rintro wv hwv ha
    rw [List.mem_flatMap] at hwv
    obtain ⟨pk2, hpk2mem, hwv2⟩ := hwv
    rw [List.mem_filter] at hpk2mem
    obtain ⟨hpk2g, hpk2dest⟩ := hpk2mem
    obtain ⟨k2, hk2, i2, hi2, hpk2eq⟩ := (mem_gatherPackets c _ pk2).mp hpk2g
    subst hpk2eq
    have hdest2 : c.rowToProc (c.xsup k2 + i2) = c.rowToProc (c.permutedRow p i) :=
      of_decide_eq_true hpk2dest
    obtain ⟨hsup2, hr2n⟩ := supno_block c hs k2 i2 hk2 hi2
    obtain ⟨hq2a, hq2b, hq2c⟩ := hs.rtp (c.xsup k2 + i2) hr2n
    rw [hdest2] at hq2b hq2c
    rw [List.mem_map] at hwv2
    obtain ⟨j2, hj2r, hj2eq⟩ := hwv2
    have hj2 : j2 < c.nrhs := List.mem_range.mp hj2r
    have h1 : wv.1 = c.xsup k2 + i2 - c.fstRow (c.rowToProc (c.permutedRow p i))
        + j2 * c.ldb (c.rowToProc (c.permutedRow p i)) := by
      rw [← hj2eq]
    have haeq : c.xsup k2 + i2 - c.fstRow (c.rowToProc (c.permutedRow p i))
        + j2 * c.ldb (c.rowToProc (c.permutedRow p i))
        = c.permutedRow p i - c.fstRow (c.rowToProc (c.permutedRow p i))
        + j * c.ldb (c.rowToProc (c.permutedRow p i)) := by
      rw [← h1, ha]
    have ha2lt : c.xsup k2 + i2 - c.fstRow (c.rowToProc (c.permutedRow p i))
        < c.ldb (c.rowToProc (c.permutedRow p i)) := by omega
    have halt : c.permutedRow p i - c.fstRow (c.rowToProc (c.permutedRow p i))
        < c.ldb (c.rowToProc (c.permutedRow p i)) := by omega
    have hjj : j2 = j := by
      have e1 := Nat.add_mul_div_right
        (c.xsup k2 + i2 - c.fstRow (c.rowToProc (c.permutedRow p i))) j2 hL
      have e2 := Nat.add_mul_div_right
        (c.permutedRow p i - c.fstRow (c.rowToProc (c.permutedRow p i))) j hL
      have e3 := Nat.div_eq_of_lt ha2lt
      have e4 := Nat.div_eq_of_lt halt
      rw [haeq] at e1
      rw [e2] at e1
      omega
    have hrr : c.xsup k2 + i2 = c.permutedRow p i := by
      rw [hjj] at haeq
      omega
    have hkk : k2 = c.supno (c.permutedRow p i) := by
      rw [← hrr, hsup2]
    rw [← hj2eq]
    show scatterX c B (c.grid.diagOwner k2) (c.addr (c.grid.diagOwner k2) k2 i2 j2)
      = B p (i + j * c.ldb p)
    have hii : i2 = c.permutedRow p i - c.xsup (c.supno (c.permutedRow p i)) := by
      rw [← hkk]
      omega
    rw [hkk, hjj] at *
    rw [hii]
    exact scatterX_value c hs B p i j hp hi hj

/-- C1 (amended): composing pdReDistribute_B_to_X with pdReDistribute_X_to_B
(the intervening x left exactly as the scattered B) reproduces B in the
caller's row distribution with the composed permutation Pc of Pr applied to
the rows: entry (i, j) of process p reappears at global row
perm_c[perm_r[fst_row + i]], on the process owning that row, at that row's
local offset.  Exactly when perm_c of perm_r is the identity on [0, n), every
entry B[i + j*ldb] is reproduced in place. -/
theorem redistribute_roundtrip_permuted (c : RConfig) (hs : ValidSetup c)
    (B : Nat → Nat → ℚ) (p i j : Nat)
    (hp : p < c.procs) (hi : i < c.mLoc p) (hj : j < c.nrhs) :
    (roundTrip c B (c.rowToProc (c.permutedRow p i))
        (c.permutedRow p i - c.fstRow (c.rowToProc (c.permutedRow p i))
          + j * c.ldb (c.rowToProc (c.permutedRow p i)))
      = B p (i + j * c.ldb p))
    ∧ ((∀ l, l < c.n → c.sigma l = l) →
        roundTrip c B p (i + j * c.ldb p) = B p (i + j * c.ldb p)) := by
  refine ⟨roundTrip_value c hs B p i j hp hi hj, fun hid => ?_⟩
  have hl : c.fstRow p + i < c.n := hs.rowsLt p hp i hi
  have hpr : c.permutedRow p i = c.fstRow p + i := hid _ hl
  have h := roundTrip_value c hs B p i j hp hi hj
  rw [hpr, hs.rtpUniq p hp i hi] at h
  have hoff : c.fstRow p + i - c.fstRow p = i := by omega
  rw [hoff] at h
  exact h

theorem validSetup_cexRC : ValidSetup cexRC :=
  ⟨by decide, by decide, by decide, by decide, by decide, by decide, by decide,
   by decide, by decide, by decide, by decide, by decide, by decide, by decide⟩

theorem validSetup_idRC : ValidSetup idRC :=
  ⟨by decide, by decide, by decide, by decide, by decide, by decide, by decide,
   by decide, by decide, by decide, by decide, by decide, by decide, by decide⟩

/-- C1 counterexample: a valid single-process setup with two size-1
supernodes, perm_r swapping the two rows and perm_c the identity.  The
composition of the two redistributions does not reproduce B: entry B[0] = 10
comes back as 20 (the round trip applies the composed permutation; the
inverse-permutation branch in pdReDistribute_X_to_B is compiled out). -/
theorem redistribute_roundtrip_not_identity :
    ValidSetup cexRC
    ∧ roundTrip cexRC cexB 0 0 = 20
    ∧ cexB 0 0 = 10
    ∧ roundTrip cexRC cexB 0 0 ≠ cexB 0 0 := by
  refine ⟨validSetup_cexRC, by decide, by decide, by decide⟩

/-- Witness for C1 at the identity-permutation setup. -/
theorem redistribute_roundtrip_permuted_witness :
    roundTrip idRC cexB 0 (0 + 0 * idRC.ldb 0) = cexB 0 (0 + 0 * idRC.ldb 0) :=
  (redistribute_roundtrip_permuted idRC validSetup_idRC cexB 0 0 0 (by decide)
    (by decide) (by decide)).2 (by decide)

/-- C4: routing and placement of the scatter: for every local row i of
process p, the packet's permuted index is perm_c[perm_r[fst_row + i]], its
destination is the diagonal owner PNUM(PROW(k), PCOL(k)) of the supernode k
containing that permuted index, and on receipt the value of right-hand side j
lands in the x block of k at offset (permuted index - FstBlockC(k)) within
the block (column j of the block), with the block's header word set to k. -/
theorem scatter_B_to_X_routing (c : RConfig) (hs : ValidSetup c)
    (B : Nat → Nat → ℚ) (p i j : Nat)
    (hp : p < c.procs) (hi : i < c.mLoc p) (hj : j < c.nrhs) :
    ((mkBPacket c B p i).irow = c.permC (c.permR (c.fstRow p + i)))
    ∧ ((mkBPacket c B p i).dest
        = c.grid.pnum (c.grid.prow (c.supno ((mkBPacket c B p i).irow)))
            (c.grid.pcol (c.supno ((mkBPacket c B p i).irow))))
    ∧ (scatterX c B (c.ownerOf (c.permutedRow p i))
        (c.addr (c.ownerOf (c.permutedRow p i)) (c.supno (c.permutedRow p i))
          (c.permutedRow p i - c.xsup (c.supno (c.permutedRow p i))) j)
        = B p (i + j * c.ldb p))
    ∧ (scatterX c B (c.grid.diagOwner (c.supno (c.permutedRow p i)))
        (c.hdr (c.grid.diagOwner (c.supno (c.permutedRow p i)))
          (c.supno (c.permutedRow p i)))
        = ((c.supno (c.permutedRow p i) : Nat) : ℚ)) := by
  refine ⟨rfl, rfl, scatterX_value c hs B p i j hp hi hj, ?_⟩
  have hl : c.fstRow p + i < c.n := hs.rowsLt p hp i hi
  have hrn := hs.sigmaLt _ hl
  exact scatterX_header c hs B _ (hs.supnoSpec _ hrn).1

/-- Witness for C4 at the identity-permutation setup. -/
theorem scatter_B_to_X_routing_witness :
    scatterX idRC cexB (idRC.ownerOf (idRC.permutedRow 0 0))
      (idRC.addr (idRC.ownerOf (idRC.permutedRow 0 0)) (idRC.supno (idRC.permutedRow 0 0))
        (idRC.permutedRow 0 0 - idRC.xsup (idRC.supno (idRC.permutedRow 0 0))) 0)
      = cexB 0 (0 + 0 * idRC.ldb 0) :=
  (scatter_B_to_X_routing idRC validSetup_idRC cexB 0 0 0 (by decide) (by decide)
    (by decide)).2.2.1

theorem lsumHeader_fold_none (nprow myrow : Nat) (ilsum : Nat → Nat) (nrhs : Nat) :
    ∀ (l : List Nat) (f : Nat → ℚ) (a : Nat),
      (∀ k2 ∈ l, k2 % nprow = myrow → a ≠ lsumBlk ilsum nrhs (k2 / nprow) - LSUM_H) →
      (l.foldl (fun f k2 =>
          if k2 % nprow = myrow
          then fun a2 => if a2 = lsumBlk ilsum nrhs (k2 / nprow) - LSUM_H
            then (k2 : ℚ) else f a2
          else f) f) a = f a := by
  intro l
  induction l with
  | nil =>
    intro f a _
    rfl
  | cons b t ih =>
    intro f a h
    rw [List.foldl_cons]
    rw [ih _ _ (fun k2 hm hr => h k2 (List.mem_cons_of_mem _ hm) hr)]
    by_cases hb : b % nprow = myrow
    · rw [if_pos hb]
      exact if_neg (h b (List.mem_cons_self _ _) hb)
    · rw [if_neg hb]

theorem lsumHeader_fold_at (nprow myrow : Nat) (ilsum : Nat → Nat) (nrhs k : Nat)
    (hrow : k % nprow = myrow) :
    ∀ (l : List Nat) (f : Nat → ℚ),
      k ∈ l →
      (∀ k2 ∈ l, k2 % nprow = myrow →
        lsumBlk ilsum nrhs (k2 / nprow) - LSUM_H
          = lsumBlk ilsum nrhs (k / nprow) - LSUM_H → k2 = k) →
      (l.foldl (fun f k2 =>
          if k2 % nprow = myrow
          then fun a2 => if a2 = lsumBlk ilsum nrhs (k2 / nprow) - LSUM_H
            then (k2 : ℚ) else f a2
          else f) f) (lsumBlk ilsum nrhs (k / nprow) - LSUM_H) = (k : ℚ) := by
  intro l
  induction l with
  | nil =>
    intro f hmem _
    exact absurd hmem (List.not_mem_nil k)
  | cons b t ih =>
    intro f hmem huniq
    rw [List.foldl_cons]
    by_cases hkt : k ∈ t
    · exact ih _ hkt (fun k2 hm hr he => huniq k2 (List.mem_cons_of_mem _ hm) hr he)
    · have hbk : b = k := by
        rcases List.mem_cons.mp hmem with h | h
        · exact h.symm
        · exact absurd h hkt
      subst hbk
      rw [lsumHeader_fold_none nprow myrow ilsum nrhs t _ _ ?hnone]
      · rw [if_pos hrow]
        exact if_pos rfl
      · intro k2 hm hr he
        exact hkt ((huniq k2 (List.mem_cons_of_mem _ hm) hr he.symm) ▸ hm)

/-- C6 (amended): in the forward sweep, X_k messages carry tag k, which lies
in [0, NSUP) and is classified as an X broadcast, and LSUM messages carry tag
NSUP + k in [NSUP, 2*NSUP), classified as LSUM; the forward receiver
dispatches solely on this tag partition.  The header word of an X payload is
the global block number k (placed by the redistribution), and the header word
of an LSUM payload is likewise its block number (placed by the setup loop).
In the backward sweep, however, the sends use the two fixed tags Xk and LSUM,
independent of k, and its receiver dispatches on those constants, not on a
[0, NSUP) partition. -/
theorem solve_message_tags
    (c : RConfig) (hs : ValidSetup c) (B : Nat → Nat → ℚ) (k : Nat)
    (hk : k < c.nsupers)
    (nprow myrow : Nat) (ilsum2 : Nat → Nat) (nrhs2 : Nat) (lsum0 : Nat → ℚ)
    (k3 : Nat) (hk3 : k3 < c.nsupers) (hrow3 : k3 % nprow = myrow)
    (hinj3 : ∀ k2, k2 < c.nsupers → k2 % nprow = myrow →
      lsumBlk ilsum2 nrhs2 (k2 / nprow) - LSUM_H
        = lsumBlk ilsum2 nrhs2 (k3 / nprow) - LSUM_H → k2 = k3) :
    (LMsg.tagOf c.nsupers (LMsg.xmsg k) = k
      ∧ LMsg.tagOf c.nsupers (LMsg.xmsg k) < c.nsupers
      ∧ classifyL c.nsupers (LMsg.tagOf c.nsupers (LMsg.xmsg k)) = some MsgClass.xcls)
    ∧ (c.nsupers ≤ LMsg.tagOf c.nsupers (LMsg.lsumMsg k)
      ∧ LMsg.tagOf c.nsupers (LMsg.lsumMsg k) < 2 * c.nsupers
      ∧ classifyL c.nsupers (LMsg.tagOf c.nsupers (LMsg.lsumMsg k))
          = some MsgClass.lsumcls)
    ∧ (∀ tag, (tag < c.nsupers → classifyL c.nsupers tag = some MsgClass.xcls)
        ∧ (c.nsupers ≤ tag → tag < 2 * c.nsupers →
            classifyL c.nsupers tag = some MsgClass.lsumcls)
        ∧ (2 * c.nsupers ≤ tag → classifyL c.nsupers tag = none))
    ∧ (scatterX c B (c.grid.diagOwner k) (c.hdr (c.grid.diagOwner k) k) = (k : ℚ))
    ∧ (setupLsumHeaders c.nsupers nprow myrow ilsum2 nrhs2 lsum0
        (lsumBlk ilsum2 nrhs2 (k3 / nprow) - LSUM_H) = (k3 : ℚ))
    ∧ ((∀ k2, uXTag k2 = uXTag k) ∧ (∀ k2, uLsumTag k2 = uLsumTag k)
      ∧ XkTag ≠ LSUMTag
      ∧ classifyU (uXTag k) = some MsgClass.xcls
      ∧ classifyU (uLsumTag k) = some MsgClass.lsumcls) := by
  refine ⟨⟨rfl, hk, ?_⟩,
    ⟨show c.nsupers ≤ c.nsupers + k from Nat.le_add_right _ _,
     show c.nsupers + k < 2 * c.nsupers by omega, ?_⟩,
    ?_, ?_, ?_, fun k2 => rfl, fun k2 => rfl, by decide, rfl, rfl⟩
  · simp [classifyL, LMsg.tagOf, hk]
  · show classifyL c.nsupers (c.nsupers + k) = some MsgClass.lsumcls
    unfold classifyL
    rw [if_neg (by omega), if_pos (by omega)]
  · intro tag
    refine ⟨fun h1 => ?_, fun h1 h2 => ?_, fun h1 => ?_⟩
    · unfold classifyL
      rw [if_pos h1]
    · unfold classifyL
      rw [if_neg (by omega), if_pos h2]
    · unfold classifyL
      rw [if_neg (by omega), if_neg (by omega)]
  · exact scatterX_header c hs B k hk
  · exact lsumHeader_fold_at nprow myrow ilsum2 nrhs2 k3 hrow3 (List.range c.nsupers)
      lsum0 (List.mem_range.mpr hk3)
      (fun k2 hm hr he => hinj3 k2 (List.mem_range.mp hm) hr he)

/-- C6 counterexample: the U-sweep sends every X block with the same constant
tag Xk, so the tag cannot equal the block number for both blocks 0 and 1 of
any problem with at least two supernodes, refuting the claim that every
message carrying X_k is sent with tag equal to k. -/
theorem u_sweep_tag_not_block_number : ¬ (uXTag 0 = 0 ∧ uXTag 1 = 1) := by
  decide

/-- Witness for C6 at the identity-permutation setup, block 0. -/
theorem solve_message_tags_witness :
    scatterX idRC cexB (idRC.grid.diagOwner 0) (idRC.hdr (idRC.grid.diagOwner 0) 0)
        = ((0 : Nat) : ℚ)
    ∧ setupLsumHeaders idRC.nsupers 1 0 (fun lk => lk) 1 (fun _ => 0)
        (lsumBlk (fun lk => lk) 1 (0 / 1) - LSUM_H) = ((0 : Nat) : ℚ) := by
  have h := solve_message_tags idRC validSetup_idRC cexB 0 (by decide)
    1 0 (fun lk => lk) 1 (fun _ => 0) 0 (by decide) (by decide) (by decide)
  exact ⟨h.2.2.2.1, h.2.2.2.2.1⟩

/-- C9: a call to pdgstrs leaves the factor-resident counter templates
unchanged: the per-call fmod array is a fresh copy of Llu->fmod and the
per-call bmod array a fresh copy of Llu->bmod (each initially equal to its
template entrywise); every pre-pass step and every scheduler event of either
sweep mutates only the copies, so after the whole call both templates hold
exactly their original values. -/
theorem pdgstrs_preserves_templates (cL cU : SolveCfg)
    (lluFmod lluBmod frecv0 brecv0 : Nat → Int) (esL esU : List SEv) :
    ((pdgstrsCounterRun cL cU lluFmod lluBmod frecv0 brecv0 esL esU).1.lluTemplate = lluFmod)
    ∧ ((pdgstrsCounterRun cL cU lluFmod lluBmod frecv0 brecv0 esL esU).2.lluTemplate = lluBmod)
    ∧ (∀ i, (entryCopy lluFmod frecv0).fmod i = lluFmod i)
    ∧ (∀ i, (entryCopy lluBmod brecv0).fmod i = lluBmod i) := by
  refine ⟨?_, ?_, fun i => rfl, fun i => rfl⟩
  · show (runTrace cL (leafPass cL (entryCopy lluFmod frecv0)) esL).lluTemplate = lluFmod
    rw [runTrace_template, leafPass_template]
    rfl
  · show (runTrace cU (rootPass cU (entryCopy lluBmod brecv0)) esU).lluTemplate = lluBmod
    rw [runTrace_template, rootPass_template]
    rfl

end SuperluDist
